import Mathlib

/-!
Verification development for the Conciliador reconciliation engine
(src/backend/reconciliation.py).

Modelling conventions of the shallow embedding:
* Monetary amounts and confidences are exact rationals (ℚ), the real-number
  semantics of the Python float program; tolerance comparisons are embedded
  verbatim.
* Dates (pandas Timestamps) are `Option Int`, a date being a day number;
  a missing date (pandas NaT / None) is `none`.  Guards of the form
  `if x and x != pd.NaT` are embedded as `x.isSome`, and sort keys /
  day gaps fall back to the source's own sentinels (999999 resp. 999)
  when a date is missing.
* Free text is `String`; Python's `in` (substring) test, `str.upper()`,
  `str.lower()`, `str.strip()` and `str.replace` are embedded by explicit
  structurally recursive character-list scans (`strContains`, `strUpper`,
  `strLower`, `strTrim`, `strRemoveAll`), so that the kernel can evaluate
  them on concrete inputs.
* The two library components the engine calls into - the regular-expression
  scanner used by `extract_invoice_references` and difflib's
  `SequenceMatcher.ratio` - are kept abstract: the reconciliation
  functions take the reference extractor `er : String → List String` and
  the similarity `ratioFn : String → String → ℚ` as parameters, and the
  range-expansion arithmetic of `extract_invoice_references` (which is the
  repository's own code, lines 122-151) is embedded on the result of a
  regex match.
* Python's stable sorts (`list.sort`, `sorted`, `DataFrame.sort_values`)
  are embedded by a stable insertion sort; `round(x, 1)` and the `.2f`
  format are embedded by exact half-even rounding on ℚ.
-/

namespace Conciliador

/-- Substring test on lists: Python's `needle in hay` for strings. -/
def listIsPre [DecidableEq α] : List α → List α → Bool
  | [], _ => true
  | _ :: _, [] => false
  | a :: as, b :: bs => a = b && listIsPre as bs

/-- Returns true when `n` occurs as a contiguous sublist of `h`. -/
def listInfix [DecidableEq α] (n : List α) : List α → Bool
  | [] => listIsPre n []
  | b :: t => listIsPre n (b :: t) || listInfix n t

/-- Python substring containment `needle in hay`. -/
def strContains (needle hay : String) : Bool :=
  listInfix needle.toList hay.toList

/-- Python `str.upper()` (character-wise, executable in the kernel). -/
def strUpper (s : String) : String := String.mk (s.toList.map Char.toUpper)

/-- Python `str.lower()` (character-wise, executable in the kernel). -/
def strLower (s : String) : String := String.mk (s.toList.map Char.toLower)

/-- Python `str.strip()`: drop leading and trailing whitespace. -/
def strTrim (s : String) : String :=
  String.mk ((((s.toList.dropWhile Char.isWhitespace).reverse.dropWhile
    Char.isWhitespace).reverse))

/-- Fueled left-to-right non-overlapping removal of a pattern
(the recursion of Python `str.replace(pat, "")`); the fuel is an upper
bound on the scan length, consumed once per step. -/
def replGo (pat : List Char) : ℕ → List Char → List Char
  | 0, s => s
  | _ + 1, [] => []
  | fuel + 1, c :: rest =>
    if listIsPre pat (c :: rest) then replGo pat fuel ((c :: rest).drop pat.length)
    else c :: replGo pat fuel rest

/-- Python `s.replace(pat, "")` for a nonempty pattern: remove every
non-overlapping occurrence, scanning left to right. -/
def strRemoveAll (s pat : String) : String :=
  if pat.toList = [] then s
  else String.mk (replGo pat.toList (s.toList.length + 1) s.toList)

/-- Python str.strip with the dash, slash and space characters: drop
leading and trailing characters of that set. -/
def stripDashSlashSpace (s : String) : String :=
  let cs := s.toList.dropWhile (fun c => c = '-' ∨ c = '/' ∨ c = ' ')
  String.mk ((cs.reverse.dropWhile (fun c => c = '-' ∨ c = '/' ∨ c = ' ')).reverse)

/-- Stable insertion of `a` after every element `b` with `le b a`
(Python sorts are stable: later input elements land after equal earlier ones). -/
def insertStable (le : α → α → Bool) (a : α) : List α → List α
  | [] => [a]
  | b :: bs => if le b a then b :: insertStable le a bs else a :: b :: bs

/-- Stable sort under the total preorder `le` (models Python `list.sort` / `sorted`). -/
def sortStable (le : α → α → Bool) (l : List α) : List α :=
  l.foldl (fun acc a => insertStable le a acc) []

/-- Half-even (banker) rounding of a rational to an integer: the rounding
mode of Python's `round` and of the `.2f` float format. -/
def roundHalfEven (x : ℚ) : ℤ :=
  let f : ℤ := ⌊x⌋
  let r : ℚ := x - f
  if r < 1/2 then f
  else if 1/2 < r then f + 1
  else if Even f then f else f + 1

/-- Python `round(x, 1)` on the exact rational value. -/
def round1 (x : ℚ) : ℚ := (roundHalfEven (x * 10) : ℚ) / 10

/-- Little-endian base-10 digits computed with explicit fuel (one unit
per digit), so that the kernel can evaluate it; equal to `Nat.digits 10`
when the fuel covers the input. -/
def natDigitsRev (fuel : ℕ) (n : ℕ) : List ℕ :=
  match fuel with
  | 0 => []
  | fuel + 1 => if n = 0 then [] else n % 10 :: natDigitsRev fuel (n / 10)

/-- Decimal digit characters of a natural number, most significant first,
the model of Python `str(int)`. -/
def natDigits10 (n : ℕ) : List Char :=
  if n = 0 then ['0']
  else ((natDigitsRev n n).reverse).map (fun d => Char.ofNat (d + 48))

/-- Decimal digit string of a natural number. -/
def natRepr (n : ℕ) : String := String.mk (natDigits10 n)

/-- Decimal parse of a digit character list, the model of Python
`int(...)` on the digit-only strings produced by the regex groups. -/
def charsToNat (cs : List Char) : ℕ :=
  cs.foldl (fun n c => n * 10 + (c.toNat - 48)) 0

/-- Python `f"{x:.2f}"` on the exact rational value (half-even at the cent). -/
def format2 (q : ℚ) : String :=
  let r : ℤ := roundHalfEven (q * 100)
  let sign : String := if r < 0 then "-" else ""
  sign ++ natRepr (r.natAbs / 100) ++ "." ++
    (if r.natAbs % 100 < 10 then "0" else "") ++ natRepr (r.natAbs % 100)

/-- One normalized ledger movement (the per-row dict handed to the
Reconciler by `reconcile_fifo`): counterparty, date, stable row index,
signed net amount, document text, derived document key, concept text,
account, sheet label and the pre-reconciled flag. -/
structure Movement where
  tercero : String
  fecha : Option Int
  idx : Nat
  neto_norm : ℚ
  doc : Option String
  doc_key : String
  concepto : String
  cuenta : String
  hoja : String
  pre_reconciled : Bool
deriving DecidableEq

/-- An open invoice as held in `Reconciler.open_invoices`
(reconciliation.py lines 334-342). -/
structure Invoice where
  doc_key : String
  remaining : ℚ
  fecha : Option Int
  row_id : Nat
  doc_ref : String
  doc_refs : List String
  original_row : Movement
deriving DecidableEq

/-- One entry of the `matches` list built by `process_payment`:
(invoice index, amount taken, method, confidence). -/
structure MatchT where
  idx : Nat
  take : ℚ
  method : String
  confidence : ℚ
deriving DecidableEq

/-- One output allocation record (the dicts appended to
`Reconciler.out_rows`); `none` stands for the Python None / NaT / NaN
entries.  The three suggestion fields exist only on Unallocated rows. -/
structure OutRow where
  SetID : Nat
  Tercero : String
  Fecha_doc : Option Int
  Fecha_pago : Option Int
  DocKey : Option String
  PagoKey : Option String
  Asignado : ℚ
  ResidualFacturaTras : Option ℚ
  Hoja_doc : Option String
  Hoja_pago : Option String
  MatchMethod : String
  Confidence : ℚ
  Cuenta_doc : Option String
  Documento_doc : Option String
  Concepto_doc : Option String
  Cuenta_pago : Option String
  Documento_pago : Option String
  Concepto_pago : Option String
  Suggestion : Option String
  SuggestedAction : Option String
  SuggestionConfidence : Option ℚ
deriving DecidableEq

/-- The Reconciler's mutable state (reconciliation.py lines 321-326). -/
structure RState where
  tol : ℚ
  open_invoices : List Invoice
  out_rows : List OutRow
  set_id : Nat
deriving DecidableEq

/-- Placeholder invoice used to make positional list access total; never
reachable because every recorded match index is in range. -/
def dummyInv : Invoice :=
  ⟨"", 0, none, 0, "", [], ⟨"", none, 0, 0, none, "", "", "", "", false⟩⟩

/-- Edit-similarity part of `fuzzy_match_score` (reconciliation.py lines
218-226): the best of the plain ratio and the ratios recomputed after
removing each of INV, F, FAC, # from both sides and stripping dash,
slash and space, skipping a recomputation when either cleaned string is
empty. -/
def bestStripRatio (ratioFn : String → String → ℚ) (s1 s2 : String) : ℚ :=
  ["INV", "F", "FAC", "#"].foldl (fun r p =>
    let c1 := stripDashSlashSpace (strRemoveAll s1 p)
    let c2 := stripDashSlashSpace (strRemoveAll s2 p)
    if c1 ≠ "" ∧ c2 ≠ "" then max r (ratioFn c1 c2) else r) (ratioFn s1 s2)

/-- The fuzzy similarity `fuzzy_match_score` (reconciliation.py lines
201-228), parameterized by difflib's `SequenceMatcher.ratio`.  Empty
input gives 0; equality after upper/trim gives 1.0 and containment 0.9,
both returned before the threshold test; otherwise the best stripped
ratio, zeroed below the threshold. -/
def fuzzy_match_score (ratioFn : String → String → ℚ)
    (str1 str2 : String) (threshold : ℚ) : ℚ :=
  if str1 = "" ∨ str2 = "" then 0
  else
    let s1 := strTrim (strUpper str1)
    let s2 := strTrim (strUpper str2)
    if s1 = s2 then 1
    else if strContains s1 s2 ∨ strContains s2 s1 then 9/10
    else
      let r := bestStripRatio ratioFn s1 s2
      if r ≥ threshold then r else 0

/-- Keyword lexicon of `find_header_row` (reconciliation.py lines 35-44);
each entry lists the literal alternatives of one regex pattern (only
`descripci[oó]n` has two). -/
def headerKeywords : List (List String) :=
  [["fecha"], ["data"], ["date"],
   ["cuenta"], ["compte"], ["account"],
   ["debe"], ["deure"], ["debit"], ["cargo"],
   ["haber"], ["haver"], ["credit"], ["abono"],
   ["saldo"], ["balance"],
   ["descripcion", "descripción"], ["descripc"], ["tercero"], ["tercer"],
   ["importe"], ["import"], ["amount"],
   ["documento"], ["document"], ["factura"], ["invoice"]]

/-- Concatenated lower-cased text of one raw row
(`" ".join(str(x).lower() for x in row.values)`). -/
def rowText (row : List String) : String :=
  String.intercalate " " (row.map strLower)

/-- Number of lexicon keywords found in a row. -/
def rowScore (row : List String) : ℕ :=
  headerKeywords.countP (fun kws => kws.any (fun k => strContains k (rowText row)))

/-- Scan of the scoring loop of `find_header_row`: carries (best_idx,
max_score), replacing them only on a strictly greater score. -/
def findHeaderGo (i : ℕ) (best : ℕ) (maxScore : ℕ) : List (List String) → ℕ × ℕ
  | [] => (best, maxScore)
  | row :: rest =>
      if rowScore row > maxScore then findHeaderGo (i + 1) i (rowScore row) rest
      else findHeaderGo (i + 1) best maxScore rest

/-- Header-row detection `find_header_row` (reconciliation.py lines
31-65): the first row of maximal keyword score, or row 0 when the best
score is below 2. -/
def find_header_row (rows : List (List String)) : ℕ :=
  if (findHeaderGo 0 0 0 rows).2 < 2 then 0 else (findHeaderGo 0 0 0 rows).1

/-- Best keyword score over all rows (0 for an empty grid), as the scan
of `find_header_row` computes it. -/
def headerMaxScore (rows : List (List String)) : ℕ :=
  (rows.map rowScore).foldl max 0

/-- Range expansion of `extract_invoice_references` (reconciliation.py
lines 122-144) applied to the two numeric groups of a matched range: an
end value with fewer digits is completed with the start value's leading
digits, then spans of 1..10 expand to every number and larger (or
non-positive) spans contribute the endpoints only. -/
def expandRangeRefs (start e : ℕ) : List String :=
  let ds := natDigits10 start
  let de := natDigits10 e
  let e' :=
    if de.length < ds.length then charsToNat (ds.take (ds.length - de.length) ++ de)
    else e
  if 0 < e' - start ∧ e' - start ≤ 10 then
    (List.range' start (e' - start + 1)).map natRepr
  else
    [natRepr start, natRepr e']

/-- Full handling of one matched range group including the optional third
number of the "1234-1236 y 1238" form (reconciliation.py lines 145-147). -/
def processRangeMatch (start e : ℕ) (third : Option String) : List String :=
  expandRangeRefs start e ++ (match third with
    | some t => if t ≠ "" then [t] else []
    | none => [])

/-- Python `residual > tol` where residual may be missing (NaN compares
false). -/
def residualGtTol (res : Option ℚ) (tol : ℚ) : Bool :=
  res.elim false (fun r => decide (tol < r))

/-- Python `pd.isna(residual) or residual <= tol`. -/
def residualNaOrLe (res : Option ℚ) (tol : ℚ) : Bool :=
  res.elim true (fun r => decide (r ≤ tol))

/-- Status classification `get_row_status` (reconciliation.py lines
988-1010) of one allocation record, as the color string the renderer
uses. -/
def get_row_status (row : OutRow) (tol : ℚ) : String :=
  if row.MatchMethod = "PreReconciled" then "blue"
  else if row.MatchMethod = "Open" ∨ row.MatchMethod = "Unallocated" then "red"
  else if tol < row.Asignado ∧ residualGtTol row.ResidualFacturaTras tol then "orange"
  else if tol < row.Asignado ∧ residualNaOrLe row.ResidualFacturaTras tol then "green"
  else "white"

/-- Modelled from the spec: the Statement Renderer's 4-way status
classification, written exactly after the spec's rule ("PreReconciled if
method=PreReconciled; Pending if method in Open,Unallocated; Partial if
allocated>ε and residual>ε; FullyMatched if allocated>ε and (residual is
null or ≤ε); else neutral"), for comparison with `get_row_status`. -/
def specRowStatus (row : OutRow) (tol : ℚ) : String :=
  if row.MatchMethod = "PreReconciled" then "PreReconciled"
  else if row.MatchMethod = "Open" ∨ row.MatchMethod = "Unallocated" then "Pending"
  else if tol < row.Asignado ∧ residualGtTol row.ResidualFacturaTras tol then "Partial"
  else if tol < row.Asignado ∧ residualNaOrLe row.ResidualFacturaTras tol then "FullyMatched"
  else "neutral"

/-- Rendering of the spec's status names as the source's colors. -/
def statusColor : String → String
  | "PreReconciled" => "blue"
  | "Pending" => "red"
  | "Partial" => "orange"
  | "FullyMatched" => "green"
  | _ => "white"

/-- Update of the element at one position (Python list index assignment /
in-place mutation of the dict held at that index). -/
def updAt : List α → ℕ → (α → α) → List α
  | [], _, _ => []
  | a :: rest, 0, f => f a :: rest
  | a :: rest, n + 1, f => a :: updAt rest n f

/-- In-place decrement of one invoice's remaining balance
(the `inv["remaining"] -= take` mutation). -/
def updRem (invs : List Invoice) (i : ℕ) (t : ℚ) : List Invoice :=
  updAt invs i (fun inv => { inv with remaining := inv.remaining - t })

/-- Working state of one `process_payment` call: the open-invoice list,
the accumulated matches, and the payment amount still to satisfy. -/
structure PState where
  invs : List Invoice
  recs : List MatchT
  left : ℚ
deriving DecidableEq

/-- The repeated three-line allocation pattern of every phase:
append a match, subtract from the invoice's remaining, subtract from the
payment's left. -/
def allocStep (s : PState) (i : ℕ) (t : ℚ) (meth : String) (conf : ℚ) : PState :=
  ⟨updRem s.invs i t, s.recs ++ [⟨i, t, meth, conf⟩], s.left - t⟩

/-- Phase-1 match score of one open invoice against a payment
(reconciliation.py lines 363-374): 0.95 on a literal substring hit of the
invoice's document text (length ≥ 3) in the payment concept, improved by
the best fuzzy score over all pairs of extracted references. -/
def refScore (ratioFn : String → String → ℚ) (concept : String)
    (payRefs : List String) (inv : Invoice) : ℚ :=
  let base : ℚ :=
    if 3 ≤ inv.doc_ref.length ∧ strContains inv.doc_ref concept then 95/100 else 0
  inv.doc_refs.foldl (fun best r =>
    payRefs.foldl (fun best pr =>
      let sc := fuzzy_match_score ratioFn r pr (7/10)
      if sc > best then sc else best) best) base

/-- Enumeration pass building `best_ref_matches`: open invoices with
remaining > tol whose score reaches 0.7, paired with their index. -/
def refMatchesGo (ratioFn : String → String → ℚ) (tol : ℚ) (concept : String)
    (payRefs : List String) (i : ℕ) : List Invoice → List (ℕ × ℚ)
  | [] => []
  | inv :: rest =>
    if inv.remaining ≤ tol then refMatchesGo ratioFn tol concept payRefs (i + 1) rest
    else
      let sc := refScore ratioFn concept payRefs inv
      if sc ≥ 7/10 then (i, sc) :: refMatchesGo ratioFn tol concept payRefs (i + 1) rest
      else refMatchesGo ratioFn tol concept payRefs (i + 1) rest

/-- Phase-1 confidence (reconciliation.py line 389). -/
def refConf (sc : ℚ) : ℚ :=
  if sc ≥ 9/10 then min (95 + sc * 5) 100 else 80 + sc * 15

/-- Greedy phase-1 allocation over the score-sorted reference matches,
stopping once the payment is satisfied. -/
def phase1Go (tol : ℚ) : List (ℕ × ℚ) → PState → PState
  | [], s => s
  | (i, sc) :: rest, s =>
    if s.left ≤ tol then s
    else if tol < (s.invs.getD i dummyInv).remaining then
      phase1Go tol rest
        (allocStep s i (min (s.invs.getD i dummyInv).remaining s.left) "Reference" (refConf sc))
    else phase1Go tol rest s

/-- Phase 1, Reference match (reconciliation.py lines 355-392). -/
def phase1 (ratioFn : String → String → ℚ) (tol : ℚ) (concept : String)
    (payRefs : List String) (s : PState) : PState :=
  phase1Go tol
    (sortStable (fun a b => decide (b.2 ≤ a.2))
      (refMatchesGo ratioFn tol concept payRefs 0 s.invs)) s

/-- Phase-2 candidate scan (reconciliation.py lines 396-401): open
invoices whose remaining equals the payment's left within tol. -/
def phase2CandsGo (tol left : ℚ) (i : ℕ) : List Invoice → List ℕ
  | [] => []
  | inv :: rest =>
    if inv.remaining ≤ tol then phase2CandsGo tol left (i + 1) rest
    else if |inv.remaining - left| ≤ tol then i :: phase2CandsGo tol left (i + 1) rest
    else phase2CandsGo tol left (i + 1) rest

/-- Phase-2 candidate list of a state. -/
def phase2Cands (tol : ℚ) (s : PState) : List ℕ :=
  phase2CandsGo tol s.left 0 s.invs

/-- Sort key of the phase-2 date-preference sort (reconciliation.py lines
406-407): the absolute day gap, with the source's 999999 fallback for a
missing invoice date. -/
def gapKey (payDate : Option Int) (fecha : Option Int) : Int :=
  match fecha, payDate with
  | some f, some p => |f - p|
  | _, _ => 999999

/-- Phase-2 candidates after the date-preference sort, applied only when
the payment has a date (the source's guard on payment_date). -/
def phase2Sorted (tol : ℚ) (payDate : Option Int) (s : PState) : List ℕ :=
  if payDate.isSome then
    sortStable (fun a b =>
      decide (gapKey payDate ((s.invs.getD a dummyInv).fecha)
        ≤ gapKey payDate ((s.invs.getD b dummyInv).fecha)))
      (phase2Cands tol s)
  else phase2Cands tol s

/-- Day gap used for the phase-2 confidence (reconciliation.py line 412),
with the source's 999 fallback when either date is missing. -/
def dayGap (payDate fecha : Option Int) : Int :=
  match payDate, fecha with
  | some p, some f => |f - p|
  | _, _ => 999

/-- Phase-2 confidence bands (reconciliation.py line 413). -/
def exactConf (dd : Int) : ℚ :=
  if dd ≤ 30 then 90 else if dd ≤ 60 then 85 else 80

/-- Phase 2, Exact amount match (reconciliation.py lines 394-416). -/
def phase2 (tol : ℚ) (payDate : Option Int) (s : PState) : PState :=
  if s.left ≤ tol then s
  else
    match phase2Sorted tol payDate s with
    | [] => s
    | best :: _ =>
      allocStep s best s.left "Exact"
        (exactConf (dayGap payDate ((s.invs.getD best dummyInv).fecha)))

/-- Snapshot of the open invoices with remaining > tol, with indices
(the `open_inv_indices` lists of phase 3). -/
def openIdxGo (tol : ℚ) (i : ℕ) : List Invoice → List (ℕ × ℚ)
  | [] => []
  | inv :: rest =>
    if tol < inv.remaining then (i, inv.remaining) :: openIdxGo tol (i + 1) rest
    else openIdxGo tol (i + 1) rest

/-- Phase-3 acceptance tolerance: max(tol, 1 percent of the current left). -/
def comboTol (tol left : ℚ) : ℚ := max tol (left * (1/100))

/-- Inner scan of the 2-invoice combination search: first partner making
the snapshot amounts sum to the payment within the combo tolerance wins
and both members are allocated in full (reconciliation.py lines 429-451). -/
def combo2Inner (tol : ℚ) (i1 : ℕ) (a1 : ℚ) : List (ℕ × ℚ) → PState → PState
  | [], s => s
  | (i2, a2) :: rest, s =>
    if |a1 + a2 - s.left| ≤ comboTol tol s.left then
      let s1 := allocStep s i1 (min ((s.invs.getD i1 dummyInv).remaining) a1)
        "CombinedAmount" 85
      allocStep s1 i2 (min ((s1.invs.getD i2 dummyInv).remaining) a2) "CombinedAmount" 85
    else combo2Inner tol i1 a1 rest s

/-- Outer loop of the 2-invoice combination search, stopping once the
payment is satisfied (reconciliation.py lines 429-453). -/
def combo2Outer (tol : ℚ) : List (ℕ × ℚ) → PState → PState
  | [], s => s
  | (i1, a1) :: rest, s =>
    let s' := combo2Inner tol i1 a1 rest s
    if s'.left ≤ tol then s' else combo2Outer tol rest s'

/-- Allocation of one member of a 3-invoice combination, guarded by
remaining > tol (reconciliation.py lines 477-481). -/
def combo3Take (tol : ℚ) (s : PState) (i : ℕ) (a : ℚ) : PState :=
  if tol < (s.invs.getD i dummyInv).remaining then
    allocStep s i (min ((s.invs.getD i dummyInv).remaining) a) "CombinedAmount" 80
  else s

/-- Innermost scan of the 3-invoice combination search. -/
def combo3Inner (tol : ℚ) (i1 : ℕ) (a1 : ℚ) (i2 : ℕ) (a2 : ℚ) :
    List (ℕ × ℚ) → PState → PState
  | [], s => s
  | (i3, a3) :: rest, s =>
    if |a1 + a2 + a3 - s.left| ≤ comboTol tol s.left then
      combo3Take tol (combo3Take tol (combo3Take tol s i1 a1) i2 a2) i3 a3
    else combo3Inner tol i1 a1 i2 a2 rest s

/-- Middle loop of the 3-invoice combination search. -/
def combo3Mid (tol : ℚ) (i1 : ℕ) (a1 : ℚ) : List (ℕ × ℚ) → PState → PState
  | [], s => s
  | (i2, a2) :: rest, s =>
    let s' := combo3Inner tol i1 a1 i2 a2 rest s
    if s'.left ≤ tol then s' else combo3Mid tol i1 a1 rest s'

/-- Outer loop of the 3-invoice combination search
(reconciliation.py lines 463-487). -/
def combo3Outer (tol : ℚ) : List (ℕ × ℚ) → PState → PState
  | [], s => s
  | (i1, a1) :: rest, s =>
    let s' := combo3Mid tol i1 a1 rest s
    if s'.left ≤ tol then s' else combo3Outer tol rest s'

/-- Second half of phase 3: the 3-invoice combination search over a
rebuilt snapshot (reconciliation.py lines 455-487). -/
def phase3b (tol : ℚ) (s1 : PState) : PState :=
  if s1.left ≤ tol then s1
  else if 3 ≤ (openIdxGo tol 0 s1.invs).length then
    combo3Outer tol (openIdxGo tol 0 s1.invs) s1
  else s1

/-- Phase 3, Combined amount match (reconciliation.py lines 418-487):
pairs first over a snapshot of the open amounts, then (after a rebuild of
the snapshot) triples. -/
def phase3 (tol : ℚ) (s : PState) : PState :=
  if s.left ≤ tol then s
  else phase3b tol
    (if 2 ≤ (openIdxGo tol 0 s.invs).length then
      combo2Outer tol (openIdxGo tol 0 s.invs) s
    else s)

/-- Phase-4 admission test for one invoice (reconciliation.py lines
493-505): open, dated 0-45 days before the payment, amount ratio in
0.8..1.2; returns the (day gap, ratio) pair of an admitted candidate. -/
def phase4Cand (tol left : ℚ) (payD : Int) (inv : Invoice) : Option (Int × ℚ) :=
  if inv.remaining ≤ tol then none
  else
    match inv.fecha with
    | none => none
    | some f =>
      let days := payD - f
      if 0 ≤ days ∧ days ≤ 45 then
        let arat := if 0 < inv.remaining then left / inv.remaining else 0
        if 4/5 ≤ arat ∧ arat ≤ 6/5 then some (days, arat) else none
      else none

/-- Phase-4 candidate scan: admitted invoices with their indices. -/
def phase4CandsGo (tol left : ℚ) (payD : Int) (i : ℕ) :
    List Invoice → List (ℕ × Int × ℚ)
  | [] => []
  | inv :: rest =>
    match phase4Cand tol left payD inv with
    | some (days, arat) => (i, days, arat) :: phase4CandsGo tol left payD (i + 1) rest
    | none => phase4CandsGo tol left payD (i + 1) rest

/-- Phase 4, Date proximity match (reconciliation.py lines 489-520). -/
def phase4 (tol : ℚ) (payDate : Option Int) (s : PState) : PState :=
  if s.left ≤ tol then s
  else
    match payDate with
    | none => s
    | some payD =>
      match sortStable (fun a b => decide (a.2.1 ≤ b.2.1))
          (phase4CandsGo tol s.left payD 0 s.invs) with
      | [] => s
      | (i, days, arat) :: _ =>
        if tol < (s.invs.getD i dummyInv).remaining then
          let dconf : ℚ := 75 - (days : ℚ) * (1/2)
          let aconf : ℚ := if 19/20 ≤ arat ∧ arat ≤ 21/20 then 70 else 65
          allocStep s i (min ((s.invs.getD i dummyInv).remaining) s.left)
            "DateProximity" (min dconf aconf)
        else s

/-- Phase-5 FIFO confidence model (reconciliation.py lines 532-567):
base 45 plus coverage, date-proximity, queue-head and clean-allocation
bonuses, capped at 75. -/
def fifoConf (tol : ℚ) (payDate : Option Int) (j : ℕ) (inv : Invoice)
    (take left : ℚ) : ℚ :=
  let c1 : ℚ := 45
  let c2 : ℚ := c1 + (if 0 < inv.remaining then
      (let cov := take / inv.remaining
       if 9/10 ≤ cov ∧ cov ≤ 11/10 then 15
       else if 4/5 ≤ cov ∧ cov ≤ 6/5 then 10
       else if 2/5 ≤ cov then 5 else 0)
    else 0)
  let c3 : ℚ := c2 + (match payDate, inv.fecha with
    | some p, some f =>
      let days := p - f
      if -30 ≤ days then
        (if days ≤ 45 then 20 else if days ≤ 75 then 15
         else if days ≤ 120 then 10 else if days ≤ 180 then 5 else 0)
      else 0
    | _, _ => 0)
  let c4 : ℚ := c3 + (if j = 0 then 5 else 0)
  let c5 : ℚ := c4 + (if |take - left| < tol ∨ |take - inv.remaining| < tol then 5 else 0)
  min c5 75

/-- Phase 5, FIFO fallback (reconciliation.py lines 522-573): walk the
queue positions in order, allocating greedily, stopping once the payment
is satisfied. -/
def phase5Go (tol : ℚ) (payDate : Option Int) : List ℕ → PState → PState
  | [], s => s
  | j :: rest, s =>
    let inv := s.invs.getD j dummyInv
    if inv.remaining ≤ tol then phase5Go tol payDate rest s
    else
      let take := min inv.remaining s.left
      let s' := allocStep s j take "FIFO" (fifoConf tol payDate j inv take s.left)
      if s'.left ≤ tol then s' else phase5Go tol payDate rest s'

/-- Payment concept lower-cased, empty when falsy
(reconciliation.py line 347). -/
def lowerConcept (p : Movement) : String :=
  if p.concepto ≠ "" then strLower p.concepto else ""

/-- Truthiness of the payment's document field. -/
def docTruthy (p : Movement) : Bool :=
  match p.doc with
  | some d => d ≠ ""
  | none => false

/-- The payment references extracted from the concept (reconciliation.py
line 351). -/
def payRefsOf (er : String → List String) (p : Movement) : List String :=
  if lowerConcept p ≠ "" then er (lowerConcept p) else []

/-- Phase 1 together with its entry guard (reconciliation.py line 356). -/
def phase1Run (er : String → List String) (ratioFn : String → String → ℚ)
    (tol : ℚ) (p : Movement) (s0 : PState) : PState :=
  if tol < s0.left ∧ (lowerConcept p ≠ "" ∨ docTruthy p) then
    phase1 ratioFn tol (lowerConcept p) (payRefsOf er p) s0
  else s0

/-- Phase 5 together with its entry guard (reconciliation.py line 524);
the queue positions are walked in order. -/
def phase5Run (tol : ℚ) (payDate : Option Int) (s4 : PState) : PState :=
  if tol < s4.left then phase5Go tol payDate (List.range s4.invs.length) s4 else s4

/-- The five matching phases of `process_payment` run in order on an
open-invoice list (reconciliation.py lines 344-573), returning the final
open list, the match list and the unsatisfied left amount. -/
def processPaymentCore (er : String → List String) (ratioFn : String → String → ℚ)
    (tol : ℚ) (p : Movement) (invs : List Invoice) : PState :=
  phase5Run tol p.fecha
    (phase4 tol p.fecha
      (phase3 tol
        (phase2 tol p.fecha
          (phase1Run er ratioFn tol p ⟨invs, [], -p.neto_norm⟩))))

/-- Disjunction of the five phase method tags. -/
def phaseMethod (m : String) : Prop :=
  m = "Reference" ∨ m = "Exact" ∨ m = "CombinedAmount" ∨
    m = "DateProximity" ∨ m = "FIFO"


/-- One candidate diagnosis of the Suggestion Engine. -/
structure Sug where
  stype : String
  confidence : ℚ
  message : String
  action : String
deriving DecidableEq

/-- Advance-payment keywords (reconciliation.py line 884). -/
def advanceKeywords : List String :=
  ["anticipo", "avance", "adelanto", "a cuenta", "provisió", "bestreta"]

/-- Credit-note keywords (reconciliation.py line 950). -/
def creditKeywords : List String :=
  ["abono", "devolución", "credit", "nota", "nc", "reembolso", "retorn"]

/-- Two-decimal digit string of an amount with the decimal point removed
(reconciliation.py lines 913-914). -/
def digitsOnly (q : ℚ) : String := strRemoveAll (format2 q) "."

/-- Number of differing positions of two equal-length digit strings. -/
def diffCount (a b : List Char) : ℕ :=
  (a.zip b).countP (fun pr => pr.1 ≠ pr.2)

/-- First open invoice whose amount differs from the payment in exactly
two digit positions (possible transposition; reconciliation.py lines
909-926, with the break after the first hit). -/
def transposeFind (payAmount : ℚ) : List Invoice → Option Invoice
  | [] => none
  | inv :: rest =>
    let aStr := digitsOnly payAmount
    let iStr := digitsOnly inv.remaining
    if aStr.length = iStr.length ∧ diffCount aStr.toList iStr.toList = 2 then some inv
    else transposeFind payAmount rest

/-- Sort order of open invoices by date, missing dates last (the
`sorted(open_invoices, key=...fecha...)` of the Suggestion Engine). -/
def invFechaLe (a b : Invoice) : Bool :=
  match a.fecha, b.fecha with
  | some x, some y => decide (x ≤ y)
  | some _, none => true
  | none, some _ => false
  | none, none => true

/-- Suggestion Engine `generate_unmatched_suggestions` (reconciliation.py
lines 856-971) for the in-run call of `process_payment`, which always
passes recent_history=None, so the two history branches are skipped;
candidate diagnoses are sorted by confidence (stable, descending) and the
best one returned, with the "unknown" default. -/
def generate_unmatched_suggestions (payAsignado : ℚ) (payConcept : String)
    (openInvs : List Invoice) : Sug :=
  let amount := |payAsignado|
  let concept := strLower payConcept
  let l1 : List Sug := if amount < 50 then
      [⟨"small_amount", 90,
        "Import petit (" ++ format2 amount ++ "€) - Possible comissió bancària o arrodoniment",
        "Classificar com a despesa bancària"⟩]
    else []
  let l2 := l1 ++ (if advanceKeywords.any (fun k => strContains k concept) then
      [⟨"advance_payment", 85, "El concepte suggereix un pagament anticipat",
        "Marcar com a pagament a compte"⟩]
    else [])
  let l3 := l2 ++ (if openInvs ≠ [] then
      (let sortedInvs := sortStable invFechaLe openInvs
       let upcoming := ((sortedInvs.take 3).map (·.remaining)).sum
       if |upcoming - amount| < amount * (5/100) then
         [⟨"future_invoices", 75,
           "Import similar a factures pendents futures (" ++ format2 upcoming ++ "€)",
           "Revisar factures del proper trimestre"⟩]
       else [])
    else [])
  let l4 := l3 ++ (if openInvs ≠ [] then
      (match transposeFind amount openInvs with
       | some inv =>
         [⟨"digit_error", 60,
           "Possible error de digitació - Similar a factura de " ++ format2 inv.remaining ++ "€",
           "Verificar import amb el banc"⟩]
       | none => [])
    else [])
  let l5 := l4 ++ (if creditKeywords.any (fun k => strContains k concept) then
      [⟨"credit_note", 80, "El concepte suggereix una nota de crèdit",
        "Buscar nota de crèdit corresponent"⟩]
    else [])
  match sortStable (fun a b => decide (b.confidence ≤ a.confidence)) l5 with
  | [] => ⟨"unknown", 0, "No s\x27ha pogut determinar el motiu",
      "Revisar manualment amb documentació bancària"⟩
  | sug :: _ => sug

/-- The allocation record written for one match (reconciliation.py lines
577-606); the recorded residual is the invoice's remaining after all
phases of this payment. -/
def mkAllocRow (setId : ℕ) (tercero : String) (p : Movement)
    (invs : List Invoice) (mt : MatchT) : OutRow :=
  let inv := invs.getD mt.idx dummyInv
  { SetID := setId, Tercero := tercero, Fecha_doc := inv.fecha, Fecha_pago := p.fecha,
    DocKey := some inv.doc_key, PagoKey := some p.doc_key, Asignado := mt.take,
    ResidualFacturaTras := some inv.remaining,
    Hoja_doc := some inv.original_row.hoja, Hoja_pago := some p.hoja,
    MatchMethod := mt.method, Confidence := round1 mt.confidence,
    Cuenta_doc := some inv.original_row.cuenta, Documento_doc := inv.original_row.doc,
    Concepto_doc := some inv.original_row.concepto,
    Cuenta_pago := some p.cuenta, Documento_pago := p.doc,
    Concepto_pago := some p.concepto,
    Suggestion := none, SuggestedAction := none, SuggestionConfidence := none }

/-- The Unallocated record of a payment left unsatisfied
(reconciliation.py lines 612-649), carrying the Suggestion Engine's top
diagnosis. -/
def unallocRow (setId : ℕ) (tercero : String) (p : Movement) (left : ℚ)
    (openClean : List Invoice) : OutRow :=
  let sug := generate_unmatched_suggestions (-left) p.concepto openClean
  { SetID := setId, Tercero := tercero, Fecha_doc := none, Fecha_pago := p.fecha,
    DocKey := none, PagoKey := some p.doc_key, Asignado := -left,
    ResidualFacturaTras := none, Hoja_doc := none, Hoja_pago := some p.hoja,
    MatchMethod := "Unallocated", Confidence := 0,
    Cuenta_doc := none, Documento_doc := none, Concepto_doc := none,
    Cuenta_pago := some p.cuenta, Documento_pago := p.doc,
    Concepto_pago := some p.concepto,
    Suggestion := some sug.message, SuggestedAction := some sug.action,
    SuggestionConfidence := some sug.confidence }

/-- Full `Reconciler.process_payment` (reconciliation.py lines 344-659):
run the phases, record the matches, drop fully paid invoices, emit an
Unallocated record when something is left, bump the set id when the open
queue emptied. -/
def processPayment (er : String → List String) (ratioFn : String → String → ℚ)
    (st : RState) (p : Movement) (tercero : String) : RState :=
  let s := processPaymentCore er ratioFn st.tol p st.open_invoices
  let newRows := s.recs.map (mkAllocRow st.set_id tercero p s.invs)
  let openClean := s.invs.filter (fun inv => decide (st.tol < inv.remaining))
  let rows2 := st.out_rows ++ newRows
  let rows3 := if st.tol < s.left then
      rows2 ++ [unallocRow st.set_id tercero p s.left openClean]
    else rows2
  let sid := if openClean.isEmpty then st.set_id + 1 else st.set_id
  ⟨st.tol, openClean, rows3, sid⟩

/-- Appending a movement to the open-invoice queue,
`Reconciler.add_invoice` (reconciliation.py lines 328-342). -/
def add_invoice (er : String → List String) (st : RState) (row : Movement) : RState :=
  let doc_refs := match row.doc with
    | some d => if d ≠ "" then er d else []
    | none => []
  let dref := match row.doc with
    | some d => if d ≠ "" then strTrim (strLower d) else ""
    | none => ""
  { st with open_invoices := st.open_invoices ++
      [⟨row.doc_key, row.neto_norm, row.fecha, row.idx, dref, doc_refs, row⟩] }

/-- The Open record emitted for a still-open invoice at end of stream
(reconciliation.py lines 663-685). -/
def openRowOf (setId : ℕ) (tercero : String) (inv : Invoice) : OutRow :=
  { SetID := setId, Tercero := tercero, Fecha_doc := inv.fecha, Fecha_pago := none,
    DocKey := some inv.doc_key, PagoKey := none, Asignado := 0,
    ResidualFacturaTras := some inv.remaining,
    Hoja_doc := some inv.original_row.hoja, Hoja_pago := none,
    MatchMethod := "Open", Confidence := 0,
    Cuenta_doc := some inv.original_row.cuenta, Documento_doc := inv.original_row.doc,
    Concepto_doc := some inv.original_row.concepto,
    Cuenta_pago := none, Documento_pago := none, Concepto_pago := none,
    Suggestion := none, SuggestedAction := none, SuggestionConfidence := none }

/-- End-of-stream flush `Reconciler.flush_remaining`
(reconciliation.py lines 661-685). -/
def flush_remaining (st : RState) (tercero : String) : RState :=
  { st with out_rows := st.out_rows ++ st.open_invoices.map (openRowOf st.set_id tercero) }

/-- One step of the movement stream (reconciliation.py lines 724-729):
positive amounts join the queue, negative amounts are processed as
payments. -/
def movStep (er : String → List String) (ratioFn : String → String → ℚ)
    (tercero : String) (st : RState) (row : Movement) : RState :=
  if 0 < row.neto_norm then add_invoice er st row
  else if row.neto_norm < 0 then processPayment er ratioFn st row tercero
  else st

/-- Run of one counterparty's Reconciler over its movement stream. -/
def runMovements (er : String → List String) (ratioFn : String → String → ℚ)
    (tol : ℚ) (tercero : String) (ms : List Movement) : RState :=
  ms.foldl (movStep er ratioFn tercero) ⟨tol, [], [], 0⟩

/-- Sort order of `df.sort_values(["tercero", "fecha", "idx"])`
(missing dates last, the pandas default na_position). -/
def movLe (a b : Movement) : Bool :=
  if a.tercero = b.tercero then
    (match a.fecha, b.fecha with
     | some x, some y => if x = y then decide (a.idx ≤ b.idx) else decide (x ≤ y)
     | some _, none => true
     | none, some _ => false
     | none, none => decide (a.idx ≤ b.idx))
  else decide (a.tercero < b.tercero)

/-- Sort order of `sorted(invoices + payments, key=(fecha, idx))` inside
one counterparty group. -/
def dateIdxLe (a b : Movement) : Bool :=
  match a.fecha, b.fecha with
  | some x, some y => if x = y then decide (a.idx ≤ b.idx) else decide (x ≤ y)
  | some _, none => true
  | none, some _ => false
  | none, none => decide (a.idx ≤ b.idx)

/-- Counterparty keys in first-appearance order of the sorted frame (the
group keys of `groupby("tercero")` on a frame already sorted by tercero). -/
def dedupGo (seen : List String) : List String → List String
  | [] => []
  | t :: rest => if seen.contains t then dedupGo seen rest
      else t :: dedupGo (seen ++ [t]) rest

/-- Update of the first row whose PagoKey matches, in the post-processing
pass (the `rows_df.loc[pay_idx[0], ...]` assignments). -/
def ppPayUpd (payAmount : ℚ) (r : OutRow) : OutRow :=
  { r with MatchMethod := "PostProcessed", Confidence := 60, Asignado := -payAmount }

/-- Update of the first row whose DocKey matches, in the post-processing
pass (the `rows_df.loc[inv_idx[0], ...]` assignments). -/
def ppInvUpd (r : OutRow) : OutRow :=
  { r with
    MatchMethod := "PostProcessed"
    Confidence := 60
    ResidualFacturaTras := some 0 }

/-- Inner scan of the post-processing pass (reconciliation.py lines
749-767): walk the snapshot of Open rows; skip missing or settled
residuals; on the first residual equal to the payment amount within tol
(strict), rewrite the first row carrying the payment's PagoKey and the
first row carrying the invoice's DocKey, then stop. -/
def ppInner (tol payAmount : ℚ) (payKey : Option String) :
    List OutRow → List OutRow → List OutRow
  | [], rows => rows
  | inv :: rest, rows =>
    match inv.ResidualFacturaTras with
    | none => ppInner tol payAmount payKey rest rows
    | some ia =>
      if ia ≤ tol then ppInner tol payAmount payKey rest rows
      else if |payAmount - ia| < tol then
        match rows.findIdx? (fun r => r.PagoKey = payKey),
          rows.findIdx? (fun r => r.DocKey = inv.DocKey) with
        | some pi, some ii => updAt (updAt rows pi (ppPayUpd payAmount)) ii ppInvUpd
        | _, _ => ppInner tol payAmount payKey rest rows
      else ppInner tol payAmount payKey rest rows

/-- Outer loop of the post-processing pass (reconciliation.py lines
733-767): for each Unallocated row of the initial snapshot, re-query the
still-Open rows and try to discharge the payment against one of them;
stop entirely once no Open rows remain. -/
def ppOuter (tol : ℚ) : List OutRow → List OutRow → List OutRow
  | [], rows => rows
  | p :: rest, rows =>
    let openInvs := rows.filter (fun r => r.MatchMethod = "Open")
    if openInvs.isEmpty then rows
    else ppOuter tol rest (ppInner tol |p.Asignado| p.PagoKey openInvs rows)

/-- Post-processing pass of `reconcile_fifo` on one counterparty's rows. -/
def postProcess (tol : ℚ) (rows : List OutRow) : List OutRow :=
  ppOuter tol (rows.filter (fun r => r.MatchMethod = "Unallocated")) rows

/-- The record emitted for a pre-reconciled movement (reconciliation.py
lines 775-823): invoice form for positive amounts, payment form
otherwise. -/
def preRecRow (setId : ℕ) (tercero : String) (row : Movement) : OutRow :=
  if 0 < row.neto_norm then
    { SetID := setId, Tercero := tercero, Fecha_doc := row.fecha, Fecha_pago := none,
      DocKey := some row.doc_key, PagoKey := none, Asignado := row.neto_norm,
      ResidualFacturaTras := some 0,
      Hoja_doc := some row.hoja, Hoja_pago := none,
      MatchMethod := "PreReconciled", Confidence := 100,
      Cuenta_doc := some row.cuenta, Documento_doc := row.doc,
      Concepto_doc := some row.concepto,
      Cuenta_pago := none, Documento_pago := none, Concepto_pago := none,
      Suggestion := none, SuggestedAction := none, SuggestionConfidence := none }
  else
    { SetID := setId, Tercero := tercero, Fecha_doc := none, Fecha_pago := row.fecha,
      DocKey := none, PagoKey := some row.doc_key, Asignado := row.neto_norm,
      ResidualFacturaTras := none,
      Hoja_doc := none, Hoja_pago := some row.hoja,
      MatchMethod := "PreReconciled", Confidence := 100,
      Cuenta_doc := none, Documento_doc := none, Concepto_doc := none,
      Cuenta_pago := some row.cuenta, Documento_pago := row.doc,
      Concepto_pago := some row.concepto,
      Suggestion := none, SuggestedAction := none, SuggestionConfidence := none }

/-- Per-counterparty body of `reconcile_fifo` (reconciliation.py lines
695-823): split off pre-reconciled rows, partition the rest into invoices
and payments, stream them in (date, idx) order through a fresh
Reconciler, flush, post-process, and append the pre-reconciled records. -/
def processGroup (er : String → List String) (ratioFn : String → String → ℚ)
    (tol : ℚ) (tercero : String) (g : List Movement) : List OutRow :=
  let preRec := g.filter (fun r => r.pre_reconciled)
  let invoices := g.filter (fun r => !r.pre_reconciled && decide (0 < r.neto_norm))
  let payments := g.filter (fun r => !r.pre_reconciled && decide (r.neto_norm < 0))
  let allMovs := sortStable dateIdxLe (invoices ++ payments)
  let r1 := runMovements er ratioFn tol tercero allMovs
  let r2 := flush_remaining r1 tercero
  postProcess tol r2.out_rows ++ preRec.map (preRecRow r1.set_id tercero)

/-- Full `reconcile_fifo` (reconciliation.py lines 687-825), parameterized
over the reference extractor and the fuzzy ratio: sort all movements by
(tercero, fecha, idx), then process each counterparty group in key
order and concatenate the outputs. -/
def reconcile_fifo (er : String → List String) (ratioFn : String → String → ℚ)
    (df : List Movement) (tol : ℚ) : List OutRow :=
  let sorted := sortStable movLe df
  (dedupGo [] (sorted.map (·.tercero))).foldl
    (fun acc t => acc ++ processGroup er ratioFn tol t (sorted.filter (fun r => r.tercero = t)))
    []

/-- Output rows referencing one invoice key. -/
def rowsFor (rows : List OutRow) (k : String) : List OutRow :=
  rows.filter (fun r => r.DocKey = some k)

/-- Sum of the allocated amounts of all records referencing one invoice
key (the conservation invariant's allocation side). -/
def sumA (rows : List OutRow) (k : String) : ℚ :=
  ((rowsFor rows k).map (·.Asignado)).sum

/-- Final residual of one invoice key: the ResidualFacturaTras of its
last record, 0 when the key has no record or the residual is missing. -/
def lastResD (rows : List OutRow) (k : String) : ℚ :=
  match (rowsFor rows k).getLast? with
  | some r => r.ResidualFacturaTras.getD 0
  | none => 0

/-- Modelled from the spec's words for the abbreviated-suffix rule ("an
end value with fewer digits than the start is treated as an abbreviated
suffix completed with the start value's leading digits"), in arithmetic
form: when the end has k digits and the start has more, the completed end
is (start div 10^k)·10^k + end; otherwise the end is unchanged.  Used to
characterize the string-level computation of `expandRangeRefs`. -/
def specAbbrevEnd (start e : ℕ) : ℕ :=
  if (natDigits10 e).length < (natDigits10 start).length then
    start / 10 ^ (natDigits10 e).length * 10 ^ (natDigits10 e).length + e
  else e

/-- Sum of the takes of the matches recorded against one invoice index. -/
def TS (ms : List MatchT) (j : ℕ) : ℚ :=
  ((ms.filter (fun m => m.idx = j)).map (·.take)).sum

/-- Sum of all takes of a match list. -/
def takeTotal (ms : List MatchT) : ℚ := (ms.map (·.take)).sum

/-- An invoice with its remaining balance zeroed: two lists equal under
`map eraseRem` agree in every field except the remaining balances. -/
def eraseRem (inv : Invoice) : Invoice := { inv with remaining := 0 }

/-- Remaining balance of the invoice at one queue position (0 out of
range, matching `dummyInv`). -/
def remAt (invs : List Invoice) (j : ℕ) : ℚ := (invs.getD j dummyInv).remaining

/-- Relation between the payment-phase states before and after any run of
allocation steps of a phase whose emitted method names satisfy `P`: the
queue keeps its shape (all fields but remaining), each position's
remaining decreases by exactly the takes recorded against it, the
payment's left decreases by the total take, and the match list grows by
in-range, nonnegative takes only. -/
structure StepRel (P : String → Prop) (s t : PState) : Prop where
  shape : t.invs.map eraseRem = s.invs.map eraseRem
  rem : ∀ j, remAt t.invs j + TS t.recs j = remAt s.invs j + TS s.recs j
  leftEq : t.left + takeTotal t.recs = s.left + takeTotal s.recs
  recsNew : ∃ new, t.recs = s.recs ++ new ∧
    ∀ mt ∈ new, mt.idx < s.invs.length ∧ 0 ≤ mt.take ∧ P mt.method

/-- Per-key tracking, phase 0: the key has not been seen yet - no open
invoice carries it and no output row references it. -/
def KeyFresh (rows : List OutRow) (invs : List Invoice) (k : String) : Prop :=
  (∀ inv ∈ invs, inv.doc_key ≠ k) ∧ rowsFor rows k = []

/-- Per-key tracking, phase 1: exactly one open invoice carries the key;
the allocations recorded so far plus its remaining equal the original
amount exactly, and the last recorded residual (if any row exists) is in
sync with the remaining. -/
def KeyOpen (rows : List OutRow) (invs : List Invoice) (k : String) (a : ℚ) : Prop :=
  invs.countP (fun i => i.doc_key = k) = 1 ∧
  ∃ inv ∈ invs, inv.doc_key = k ∧
    sumA rows k + inv.remaining = a ∧
    (rowsFor rows k = [] ∨ ∃ r, (rowsFor rows k).getLast? = some r ∧
      r.ResidualFacturaTras = some inv.remaining)

/-- Per-key tracking, phase 2: the key left the open queue and its
records already satisfy the conservation bound. -/
def KeyClosed (tol : ℚ) (rows : List OutRow) (invs : List Invoice)
    (k : String) (a : ℚ) : Prop :=
  (∀ inv ∈ invs, inv.doc_key ≠ k) ∧ |sumA rows k + lastResD rows k - a| ≤ tol

/-! ### Concrete inputs used in the example runs -/

/-- The trivial reference extractor used in concrete runs (no regex
layer: no references extracted). -/
def erNone : String → List String := fun _ => []

/-- The trivial similarity ratio used in concrete runs. -/
def ratioZero : String → String → ℚ := fun _ _ => 0

/-- Invoice of 50.5 for the combined-amount overshoot run. -/
def cInvA : Invoice :=
  ⟨"kA", 101/2, none, 0, "", [], ⟨"t", none, 0, 101/2, none, "kA", "", "c", "h", false⟩⟩

/-- Invoice of 50.4 for the combined-amount overshoot run. -/
def cInvB : Invoice :=
  ⟨"kB", 252/5, none, 1, "", [], ⟨"t", none, 1, 252/5, none, "kB", "", "c", "h", false⟩⟩

/-- Invoice of 100 for the exact-settlement run. -/
def cInvC : Invoice :=
  ⟨"kC", 100, none, 0, "", [], ⟨"t", none, 0, 100, none, "kC", "", "c", "h", false⟩⟩

/-- A 100 payment with no concept text. -/
def cPay100 : Movement := ⟨"t", none, 2, -100, none, "p", "", "c", "h", false⟩

/-- A referenced invoice of 100 with document text "abc". -/
def cInvR : Invoice :=
  ⟨"kR", 100, none, 0, "abc", [], ⟨"t", none, 0, 100, none, "kR", "", "c", "h", false⟩⟩

/-- A referenced invoice with a tiny open remainder of 0.02 and document
text "abc". -/
def cInvRsmall : Invoice :=
  ⟨"kR", 2/100, none, 0, "abc", [], ⟨"t", none, 0, 2/100, none, "kR", "", "c", "h", false⟩⟩

/-- An unreferenced invoice of 99.99, amount-matching a 100 payment
within the 0.01 tolerance. -/
def cInvO : Invoice :=
  ⟨"kO", 9999/100, none, 1, "", [], ⟨"t", none, 1, 9999/100, none, "kO", "", "c", "h", false⟩⟩

/-- A 100 payment whose concept "pago abc" contains the reference "abc". -/
def cPayRef : Movement := ⟨"t", none, 1, -100, none, "p", "pago abc", "c", "h", false⟩

/-- The payment-before-invoice stream breaking conservation through the
post-processing pass: a 100 payment dated before its 100 invoice. -/
def cPayEarly : Movement := ⟨"t", some 10, 0, -100, none, "p1", "", "c", "h", false⟩

/-- The invoice arriving after its payment in the post-processing
counterexample stream. -/
def cInvLate : Movement := ⟨"t", some 20, 1, 100, some "F9", "k1", "", "c", "h", false⟩

/-- Invoice movement of 100 for the conservation witness run. -/
def cInvMov : Movement := ⟨"t", some 1, 0, 100, none, "k1", "", "c", "h", false⟩

/-- Partial payment of 30 for the conservation witness run. -/
def cPay30 : Movement := ⟨"t", some 2, 1, -30, none, "p1", "", "c", "h", false⟩

/-! ### Helper lemmas -/

theorem fuzzy_unfold (ratioFn : String → String → ℚ) (a b : String) (t : ℚ) :
    fuzzy_match_score ratioFn a b t =
      if a = "" ∨ b = "" then 0
      else if strTrim (strUpper a) = strTrim (strUpper b) then 1
      else if strContains (strTrim (strUpper a)) (strTrim (strUpper b)) ∨
          strContains (strTrim (strUpper b)) (strTrim (strUpper a)) then 9/10
      else if bestStripRatio ratioFn (strTrim (strUpper a)) (strTrim (strUpper b)) ≥ t then
        bestStripRatio ratioFn (strTrim (strUpper a)) (strTrim (strUpper b))
      else 0 := rfl

theorem le_foldl_max (l : List ℕ) : ∀ a : ℕ, a ≤ l.foldl max a := by
  induction l with
  | nil => intro a; exact le_rfl
  | cons x l ih =>
    intro a
    calc a ≤ max a x := le_max_left a x
    _ ≤ (x :: l).foldl max a := by rw [List.foldl_cons]; exact ih (max a x)

theorem findHeaderGo_spec (rows : List (List String)) : ∀ i best maxS : ℕ,
    (findHeaderGo i best maxS rows).2 = (rows.map rowScore).foldl max maxS ∧
    ((findHeaderGo i best maxS rows).2 = maxS →
      (findHeaderGo i best maxS rows).1 = best) ∧
    (maxS < (findHeaderGo i best maxS rows).2 →
      ∃ j, j < rows.length ∧ (findHeaderGo i best maxS rows).1 = i + j ∧
        rowScore (rows.getD j []) = (findHeaderGo i best maxS rows).2) := by
  induction rows with
  | nil =>
    intro i best maxS
    exact ⟨rfl, fun _ => rfl, fun h => absurd h (lt_irrefl _)⟩
  | cons r rest ih =>
    intro i best maxS
    by_cases h : rowScore r > maxS
    · have e : findHeaderGo i best maxS (r :: rest) =
          findHeaderGo (i + 1) i (rowScore r) rest := by
        simp only [findHeaderGo, if_pos h]
      obtain ⟨h1, h2, h3⟩ := ih (i + 1) i (rowScore r)
      have hfold : ((r :: rest).map rowScore).foldl max maxS =
          (rest.map rowScore).foldl max (rowScore r) := by
        rw [List.map_cons, List.foldl_cons, max_eq_right (le_of_lt h)]
      refine ⟨by rw [e, h1, hfold], fun hm => ?_, fun hlt => ?_⟩
      · exfalso
        have hle : rowScore r ≤ (findHeaderGo (i + 1) i (rowScore r) rest).2 := by
          rw [h1]; exact le_foldl_max _ _
        rw [e] at hm
        omega
      · rw [e] at hlt ⊢
        have hle : rowScore r ≤ (findHeaderGo (i + 1) i (rowScore r) rest).2 := by
          rw [h1]; exact le_foldl_max _ _
        rcases eq_or_lt_of_le hle with heq | hstrict
        · exact ⟨0, by rw [List.length_cons]; omega, by rw [h2 heq.symm]; omega, by
            simpa [List.getD] using heq⟩
        · obtain ⟨j, hj, hidx, hsc⟩ := h3 hstrict
          exact ⟨j + 1, by rw [List.length_cons]; omega, by rw [hidx]; omega,
            by simpa [List.getD] using hsc⟩
    · have e : findHeaderGo i best maxS (r :: rest) =
          findHeaderGo (i + 1) best maxS rest := by
        simp only [findHeaderGo, if_neg h]
      obtain ⟨h1, h2, h3⟩ := ih (i + 1) best maxS
      have hfold : ((r :: rest).map rowScore).foldl max maxS =
          (rest.map rowScore).foldl max maxS := by
        rw [List.map_cons, List.foldl_cons, max_eq_left (not_lt.mp h)]
      refine ⟨by rw [e, h1, hfold], fun hm => by rw [e]; exact h2 (by rw [← e]; exact hm),
        fun hlt => ?_⟩
      rw [e] at hlt ⊢
      obtain ⟨j, hj, hidx, hsc⟩ := h3 hlt
      exact ⟨j + 1, by rw [List.length_cons]; omega, by rw [hidx]; omega,
        by simpa [List.getD] using hsc⟩

/-! ### C9: header-row detection -/

/-- C9.  `find_header_row` scores each row by the number of multilingual
lexicon keywords found in its concatenated lower-cased text, and returns
the index of a row achieving the maximum score (the first such row), or
row 0 whenever the best score is below 2. -/
theorem c9_find_header_row (rows : List (List String)) :
    (headerMaxScore rows < 2 → find_header_row rows = 0) ∧
    (2 ≤ headerMaxScore rows →
      find_header_row rows < rows.length ∧
      rowScore (rows.getD (find_header_row rows) []) = headerMaxScore rows) := by
  obtain ⟨h1, _, h3⟩ := findHeaderGo_spec rows 0 0 0
  have hm : (findHeaderGo 0 0 0 rows).2 = headerMaxScore rows := h1
  constructor
  · intro hlt
    unfold find_header_row
    rw [if_pos (by omega)]
  · intro hge
    unfold find_header_row
    rw [if_neg (by omega)]
    obtain ⟨j, hj, hidx, hsc⟩ := h3 (by omega)
    constructor
    · omega
    · rw [hidx]
      simpa [hm] using hsc

/-- C9, witness: a grid whose second row holds two keywords is detected
at index 1, achieving the maximal score. -/
theorem c9_witness :
    find_header_row [["x", "y"], ["Fecha", "Debe", "Haber"], ["1", "2"]] <
        ([["x", "y"], ["Fecha", "Debe", "Haber"], ["1", "2"]] :
          List (List String)).length ∧
    rowScore ([["x", "y"], ["Fecha", "Debe", "Haber"], ["1", "2"]].getD
        (find_header_row [["x", "y"], ["Fecha", "Debe", "Haber"], ["1", "2"]]) []) =
      headerMaxScore [["x", "y"], ["Fecha", "Debe", "Haber"], ["1", "2"]] :=
  (c9_find_header_row [["x", "y"], ["Fecha", "Debe", "Haber"], ["1", "2"]]).2
    (by with_unfolding_all decide)

theorem natDigitsRev_eq : ∀ fuel n : ℕ, n ≤ fuel → natDigitsRev fuel n = Nat.digits 10 n := by
  intro fuel
  induction fuel with
  | zero =>
    intro n hn
    have h0 : n = 0 := Nat.le_zero.mp hn
    subst h0
    simp [natDigitsRev]
  | succ fuel ih =>
    intro n hn
    by_cases h : n = 0
    · subst h
      simp [natDigitsRev]
    · have hdiv : n / 10 < n := Nat.div_lt_self (Nat.pos_of_ne_zero h) (by norm_num)
      rw [show natDigitsRev (fuel + 1) n = n % 10 :: natDigitsRev fuel (n / 10) by
            simp [natDigitsRev, h],
        ih (n / 10) (by omega),
        Nat.digits_def' (by norm_num : (1:ℕ) < 10) (Nat.pos_of_ne_zero h)]

theorem charToNat_digit (d : ℕ) (h : d < 10) : (Char.ofNat (d + 48)).toNat = d + 48 := by
  unfold Char.ofNat
  split
  · rfl
  · rename_i hv
    exact absurd (Or.inl (by omega)) hv

theorem charsToNat_shift (cs : List Char) : ∀ n : ℕ,
    cs.foldl (fun n c => n * 10 + (c.toNat - 48)) n =
      n * 10 ^ cs.length + charsToNat cs := by
  induction cs with
  | nil => intro n; simp [charsToNat]
  | cons c cs ih =>
    intro n
    have h2 : charsToNat (c :: cs) = (c.toNat - 48) * 10 ^ cs.length + charsToNat cs := by
      have hh : charsToNat (c :: cs) =
          cs.foldl (fun n c => n * 10 + (c.toNat - 48)) (0 * 10 + (c.toNat - 48)) := rfl
      rw [hh, ih (0 * 10 + (c.toNat - 48)), Nat.zero_mul, Nat.zero_add]
    rw [List.foldl_cons, ih (n * 10 + (c.toNat - 48)), h2, List.length_cons]
    ring

theorem charsToNat_append (a b : List Char) :
    charsToNat (a ++ b) = charsToNat a * 10 ^ b.length + charsToNat b := by
  unfold charsToNat
  rw [List.foldl_append]
  exact charsToNat_shift b _

theorem charsToNat_revDigits (ds : List ℕ) (h : ∀ d ∈ ds, d < 10) :
    charsToNat ((ds.reverse).map (fun d => Char.ofNat (d + 48))) = Nat.ofDigits 10 ds := by
  induction ds with
  | nil => simp [charsToNat, Nat.ofDigits_nil]
  | cons d ds ih =>
    rw [List.reverse_cons, List.map_append]
    simp only [List.map_cons, List.map_nil]
    rw [charsToNat_append]
    have hd : d < 10 := h d (List.mem_cons_self _ _)
    have h1 : charsToNat [Char.ofNat (d + 48)] = d := by
      have hh : charsToNat [Char.ofNat (d + 48)] =
          0 * 10 + ((Char.ofNat (d + 48)).toNat - 48) := rfl
      rw [hh, charToNat_digit d hd]
      omega
    rw [h1, ih (fun x hx => h x (List.mem_cons_of_mem _ hx)), Nat.ofDigits_cons]
    simp only [List.length_cons, List.length_nil, pow_one, pow_zero]
    ring

theorem charsToNat_natDigits10 (n : ℕ) : charsToNat (natDigits10 n) = n := by
  by_cases h : n = 0
  · subst h
    decide
  · unfold natDigits10
    rw [if_neg h, natDigitsRev_eq n n le_rfl,
      charsToNat_revDigits _ (fun d hd => Nat.digits_lt_base (by norm_num) hd),
      Nat.ofDigits_digits]

theorem digits_drop (k : ℕ) : ∀ n : ℕ,
    (Nat.digits 10 n).drop k = Nat.digits 10 (n / 10 ^ k) := by
  induction k with
  | zero => intro n; simp
  | succ k ih =>
    intro n
    by_cases h : n = 0
    · subst h; simp
    · rw [Nat.digits_def' (by norm_num : (1:ℕ) < 10) (Nat.pos_of_ne_zero h),
        List.drop_succ_cons, ih (n / 10), Nat.div_div_eq_div_mul]
      congr 2
      ring

theorem natDigits10_length_pos (n : ℕ) : 0 < (natDigits10 n).length := by
  unfold natDigits10
  split_ifs with h
  · simp
  · simp only [List.length_map, List.length_reverse]
    rw [natDigitsRev_eq n n le_rfl]
    have hne : Nat.digits 10 n ≠ [] := Nat.digits_ne_nil_iff_ne_zero.mpr h
    exact List.length_pos.mpr hne

theorem take_prefix_value (start e : ℕ)
    (hlt : (natDigits10 e).length < (natDigits10 start).length) :
    charsToNat ((natDigits10 start).take
        ((natDigits10 start).length - (natDigits10 e).length) ++ natDigits10 e) =
      start / 10 ^ (natDigits10 e).length * 10 ^ (natDigits10 e).length + e := by
  have hs : start ≠ 0 := by
    intro h0
    subst h0
    have h1 : (natDigits10 0).length = 1 := by decide
    have h2 := natDigits10_length_pos e
    omega
  have hL : natDigits10 start =
      ((Nat.digits 10 start).reverse).map (fun d => Char.ofNat (d + 48)) := by
    unfold natDigits10
    rw [if_neg hs, natDigitsRev_eq start start le_rfl]
  have hlen : (Nat.digits 10 start).length = (natDigits10 start).length := by
    rw [hL, List.length_map, List.length_reverse]
  have hkL : (natDigits10 e).length ≤ (Nat.digits 10 start).length := by omega
  have htake : (natDigits10 start).take
      ((natDigits10 start).length - (natDigits10 e).length) =
      ((Nat.digits 10 (start / 10 ^ (natDigits10 e).length)).reverse).map
        (fun d => Char.ofNat (d + 48)) := by
    rw [hL, ← List.map_take]
    congr 1
    rw [List.length_map, List.length_reverse, List.take_reverse,
      show (Nat.digits 10 start).length -
          ((Nat.digits 10 start).length - (natDigits10 e).length) =
          (natDigits10 e).length by omega,
      digits_drop]
  rw [htake, charsToNat_append,
    charsToNat_revDigits _ (fun d hd => Nat.digits_lt_base (by norm_num) hd),
    Nat.ofDigits_digits, charsToNat_natDigits10]

/-! ### C8: range expansion -/

/-- C8.  `extract_invoice_references`' range expansion (here
`expandRangeRefs`, applied to the two numeric groups of a matched range
pattern): an end value with fewer digits than the start is completed with
the start value's leading digits (arithmetically, (start div 10^k)·10^k +
end for a k-digit end); a completed span of 1..10 expands into every
individual reference between the endpoints, any other span contributes
only the two endpoint values; at most 11 reference strings are produced
per range. -/
theorem c8_range_expansion (start e : ℕ) :
    (0 < specAbbrevEnd start e - start ∧ specAbbrevEnd start e - start ≤ 10 →
      expandRangeRefs start e =
        (List.range' start (specAbbrevEnd start e - start + 1)).map natRepr) ∧
    (¬(0 < specAbbrevEnd start e - start ∧ specAbbrevEnd start e - start ≤ 10) →
      expandRangeRefs start e = [natRepr start, natRepr (specAbbrevEnd start e)]) ∧
    (expandRangeRefs start e).length ≤ 11 := by
  have he' : (if (natDigits10 e).length < (natDigits10 start).length then
      charsToNat ((natDigits10 start).take
        ((natDigits10 start).length - (natDigits10 e).length) ++ natDigits10 e)
      else e) = specAbbrevEnd start e := by
    unfold specAbbrevEnd
    split_ifs with h
    · exact take_prefix_value start e h
    · rfl
  have hexp : expandRangeRefs start e =
      (if 0 < specAbbrevEnd start e - start ∧ specAbbrevEnd start e - start ≤ 10 then
        (List.range' start (specAbbrevEnd start e - start + 1)).map natRepr
      else [natRepr start, natRepr (specAbbrevEnd start e)]) := by
    simp only [expandRangeRefs]
    rw [he']
  refine ⟨fun hc => by rw [hexp, if_pos hc], fun hc => by rw [hexp, if_neg hc], ?_⟩
  rw [hexp]
  split_ifs with hc
  · rw [List.length_map, List.length_range']
    omega
  · simp

/-- C8, witness: the abbreviated range 1234 to 36 completes to 1236 and
expands to the three individual references. -/
theorem c8_witness :
    (0 < specAbbrevEnd 1234 36 - 1234 ∧ specAbbrevEnd 1234 36 - 1234 ≤ 10) ∧
    expandRangeRefs 1234 36 =
      (List.range' 1234 (specAbbrevEnd 1234 36 - 1234 + 1)).map natRepr :=
  ⟨by with_unfolding_all decide, (c8_range_expansion 1234 36).1
    (by with_unfolding_all decide)⟩

/-! ### C10: renderer status classification -/

/-- C10.  For every allocation record row and tolerance, `get_row_status`
realizes exactly the spec's 4-way classification (rendered as its colors):
PreReconciled when method = "PreReconciled"; Pending when method is Open
or Unallocated; Partial when allocated > ε and residual > ε; FullyMatched
when allocated > ε and the residual is null or ≤ ε; neutral otherwise,
the first applicable rule in this order deciding. -/
theorem c10_row_status (row : OutRow) (tol : ℚ) :
    get_row_status row tol = statusColor (specRowStatus row tol) := by
  unfold get_row_status specRowStatus
  split_ifs <;> rfl

/-! ### C6: fuzzy match score structure -/

/-- C6 (amended).  For nonempty inputs, `fuzzy_match_score` returns 1.0
on equality after upper-casing and trimming and 0.9 on containment, in
both cases bypassing the caller's threshold; only the remaining
edit-similarity branch (the best of the plain ratio and the
prefix-stripped recomputations) is zeroed below the threshold. -/
theorem c6_fuzzy_structure (ratioFn : String → String → ℚ) (a b : String) (t : ℚ)
    (ha : a ≠ "") (hb : b ≠ "") :
    (strTrim (strUpper a) = strTrim (strUpper b) →
      fuzzy_match_score ratioFn a b t = 1) ∧
    (strTrim (strUpper a) ≠ strTrim (strUpper b) →
      (strContains (strTrim (strUpper a)) (strTrim (strUpper b)) ∨
        strContains (strTrim (strUpper b)) (strTrim (strUpper a))) →
      fuzzy_match_score ratioFn a b t = 9/10) ∧
    (strTrim (strUpper a) ≠ strTrim (strUpper b) →
      ¬(strContains (strTrim (strUpper a)) (strTrim (strUpper b)) ∨
        strContains (strTrim (strUpper b)) (strTrim (strUpper a))) →
      fuzzy_match_score ratioFn a b t =
        (if bestStripRatio ratioFn (strTrim (strUpper a)) (strTrim (strUpper b)) ≥ t then
          bestStripRatio ratioFn (strTrim (strUpper a)) (strTrim (strUpper b)) else 0)) := by
  have hcond : ¬(a = "" ∨ b = "") := by
    rintro (h | h)
    · exact ha h
    · exact hb h
  refine ⟨fun h => ?_, fun hne hc => ?_, fun hne hc => ?_⟩
  · rw [fuzzy_unfold, if_neg hcond, if_pos h]
  · rw [fuzzy_unfold, if_neg hcond, if_neg hne, if_pos hc]
  · rw [fuzzy_unfold, if_neg hcond, if_neg hne, if_neg hc]

/-- C6, counterexample to the claim as stated: with threshold 0.95 the
containment pair AB / ABC scores 0.9, which is below the threshold yet
is returned unchanged instead of 0. -/
theorem c6_counterexample :
    fuzzy_match_score (fun _ _ => 0) "AB" "ABC" (95/100) = 9/10 ∧
    (9:ℚ)/10 < 95/100 ∧ (9:ℚ)/10 ≠ 0 :=
  ⟨by with_unfolding_all decide, by norm_num, by norm_num⟩

/-- C6, witness: equal-after-normalization inputs score 1.0. -/
theorem c6_witness : fuzzy_match_score (fun _ _ => 0) "x" " X" (99/100) = 1 :=
  (c6_fuzzy_structure (fun _ _ => 0) "x" " X" (99/100) (by decide) (by decide)).1
    (by with_unfolding_all decide)

/-! ### C5: determinism of reconcile_fifo -/

/-- C5.  The full reconciliation pipeline is a pure function of the
normalized movement list (and the tolerance and the two library
callbacks): two runs on identical input, row order included, produce
identical allocation-record lists in every field. -/
theorem c5_deterministic_rerun (er : String → List String)
    (ratioFn : String → String → ℚ) (tol : ℚ) (df1 df2 : List Movement)
    (h : df1 = df2) :
    reconcile_fifo er ratioFn df1 tol = reconcile_fifo er ratioFn df2 tol := by
  rw [h]

/-- C5, witness at a concrete two-movement input. -/
theorem c5_witness :
    reconcile_fifo (fun _ => []) (fun _ _ => 0)
      [⟨"t", some 1, 0, 100, none, "k", "", "c", "h", false⟩,
       ⟨"t", some 2, 1, -100, none, "p", "", "c", "h", false⟩] (1/100) =
    reconcile_fifo (fun _ => []) (fun _ _ => 0)
      [⟨"t", some 1, 0, 100, none, "k", "", "c", "h", false⟩,
       ⟨"t", some 2, 1, -100, none, "p", "", "c", "h", false⟩] (1/100) :=
  c5_deterministic_rerun (fun _ => []) (fun _ _ => 0) (1/100) _ _ rfl

/-! ### C7: open queue invariant -/

/-- C7.  After every `process_payment` call, every invoice still in the
open-invoice queue has remaining strictly above the tolerance: invoices
whose remaining fell to the tolerance or below are removed by the
cleanup filter, so later payments and the end-of-stream flush only ever
see invoices with remaining > ε. -/
theorem c7_open_queue_above_tol (er : String → List String)
    (ratioFn : String → String → ℚ) (st : RState) (p : Movement) (t : String) :
    ∀ inv ∈ (processPayment er ratioFn st p t).open_invoices,
      st.tol < inv.remaining := by
  intro inv h
  have he : (processPayment er ratioFn st p t).open_invoices =
      (processPaymentCore er ratioFn st.tol p st.open_invoices).invs.filter
        (fun inv => decide (st.tol < inv.remaining)) := rfl
  rw [he] at h
  exact of_decide_eq_true (List.mem_filter.mp h).2

/-- C7, witness: a 100 invoice partially paid by 30 stays in the queue
with remaining 70, above the tolerance. -/
theorem c7_witness :
    (⟨"k1", 70, none, 0, "", [],
      ⟨"t", none, 0, 100, none, "k1", "", "c", "h", false⟩⟩ : Invoice) ∈
      (processPayment (fun _ => []) (fun _ _ => 0)
        (add_invoice (fun _ => []) ⟨1/100, [], [], 0⟩
          ⟨"t", none, 0, 100, none, "k1", "", "c", "h", false⟩)
        ⟨"t", none, 1, -30, none, "p1", "", "c", "h", false⟩ "t").open_invoices ∧
    ((1:ℚ)/100 < 70) :=
  ⟨by with_unfolding_all decide,
   c7_open_queue_above_tol (fun _ => []) (fun _ _ => 0)
     (add_invoice (fun _ => []) ⟨1/100, [], [], 0⟩
       ⟨"t", none, 0, 100, none, "k1", "", "c", "h", false⟩)
     ⟨"t", none, 1, -30, none, "p1", "", "c", "h", false⟩ "t"
     ⟨"k1", 70, none, 0, "", [],
       ⟨"t", none, 0, 100, none, "k1", "", "c", "h", false⟩⟩
     (by with_unfolding_all decide)⟩

/-! ### Payment-phase machinery -/

theorem mem_insertStable (le : α → α → Bool) (a x : α) :
    ∀ l : List α, x ∈ insertStable le a l ↔ x ∈ a :: l := by
  intro l
  induction l with
  | nil => simp [insertStable]
  | cons b bs ih =>
    simp only [insertStable]
    split_ifs with h
    · rw [List.mem_cons, ih]
      simp only [List.mem_cons]
      tauto
    · simp

theorem mem_sortStable_fold (le : α → α → Bool) :
    ∀ (l acc : List α) (x : α),
      x ∈ l.foldl (fun acc a => insertStable le a acc) acc ↔ x ∈ acc ∨ x ∈ l := by
  intro l
  induction l with
  | nil => simp
  | cons a l ih =>
    intro acc x
    rw [List.foldl_cons, ih, mem_insertStable]
    simp only [List.mem_cons]
    tauto

theorem mem_sortStable (le : α → α → Bool) (l : List α) (x : α) :
    x ∈ sortStable le l ↔ x ∈ l := by
  unfold sortStable
  rw [mem_sortStable_fold]
  simp

theorem updRem_map_eraseRem : ∀ (invs : List Invoice) (i : ℕ) (t : ℚ),
    (updRem invs i t).map eraseRem = invs.map eraseRem := by
  intro invs
  induction invs with
  | nil => intro i t; rfl
  | cons inv rest ih =>
    intro i t
    cases i with
    | zero => simp [updRem, updAt, eraseRem]
    | succ n =>
      show eraseRem inv :: (updRem rest n t).map eraseRem = eraseRem inv :: rest.map eraseRem
      rw [ih n t]

theorem remAt_updRem : ∀ (invs : List Invoice) (i : ℕ) (t : ℚ), i < invs.length →
    ∀ j, remAt (updRem invs i t) j = remAt invs j - (if j = i then t else 0) := by
  intro invs
  induction invs with
  | nil => intro i t h; simp at h
  | cons inv rest ih =>
    intro i t h j
    cases i with
    | zero =>
      cases j with
      | zero => simp [updRem, updAt, remAt]
      | succ m => simp [updRem, updAt, remAt]
    | succ n =>
      cases j with
      | zero => simp [updRem, updAt, remAt]
      | succ m =>
        have hn : n < rest.length := by
          rw [List.length_cons] at h
          omega
        have hm := ih n t hn m
        show remAt (updRem rest n t) m = remAt rest m - (if m + 1 = n + 1 then t else 0)
        rw [hm]
        by_cases hmn : m = n
        · subst hmn; simp
        · rw [if_neg hmn, if_neg (by omega)]

theorem TS_append_single (ms : List MatchT) (mt : MatchT) (j : ℕ) :
    TS (ms ++ [mt]) j = TS ms j + (if mt.idx = j then mt.take else 0) := by
  unfold TS
  rw [List.filter_append]
  split_ifs with h
  · rw [show List.filter (fun m => decide (m.idx = j)) [mt] = [mt] by simp [h]]
    simp
  · rw [show List.filter (fun m => decide (m.idx = j)) [mt] = [] by simp [h]]
    simp

theorem takeTotal_append (ms ms' : List MatchT) :
    takeTotal (ms ++ ms') = takeTotal ms + takeTotal ms' := by
  unfold takeTotal
  rw [List.map_append, List.sum_append]

theorem StepRel.reflex (P : String → Prop) (s : PState) : StepRel P s s :=
  ⟨rfl, fun _ => rfl, rfl, ⟨[], by simp, by simp⟩⟩

theorem StepRel.length {P : String → Prop} {s t : PState} (h : StepRel P s t) :
    t.invs.length = s.invs.length := by
  have h2 := congrArg List.length h.shape
  simpa using h2

theorem StepRel.comp {P : String → Prop} {s t u : PState}
    (h1 : StepRel P s t) (h2 : StepRel P t u) : StepRel P s u := by
  obtain ⟨new1, e1, b1⟩ := h1.recsNew
  obtain ⟨new2, e2, b2⟩ := h2.recsNew
  refine ⟨h2.shape.trans h1.shape, fun j => (h2.rem j).trans (h1.rem j),
    (h2.leftEq).trans h1.leftEq, new1 ++ new2, by rw [e2, e1, List.append_assoc], ?_⟩
  intro mt hmt
  rcases List.mem_append.mp hmt with hm | hm
  · exact b1 mt hm
  · obtain ⟨hi, ht, hp⟩ := b2 mt hm
    exact ⟨h1.length ▸ hi, ht, hp⟩

theorem StepRel.mono {P Q : String → Prop} {s t : PState}
    (hpq : ∀ m, P m → Q m) (h : StepRel P s t) : StepRel Q s t := by
  obtain ⟨new, e, b⟩ := h.recsNew
  exact ⟨h.shape, h.rem, h.leftEq, new, e, fun mt hmt =>
    ⟨(b mt hmt).1, (b mt hmt).2.1, hpq _ (b mt hmt).2.2⟩⟩

theorem stepRel_allocStep (P : String → Prop) (s : PState) (i : ℕ) (t : ℚ)
    (meth : String) (conf : ℚ) (hi : i < s.invs.length) (ht : 0 ≤ t)
    (hm : P meth) : StepRel P s (allocStep s i t meth conf) := by
  refine ⟨updRem_map_eraseRem _ _ _, fun j => ?_, ?_, [⟨i, t, meth, conf⟩], rfl, ?_⟩
  · show remAt (updRem s.invs i t) j + TS (s.recs ++ [⟨i, t, meth, conf⟩]) j =
      remAt s.invs j + TS s.recs j
    rw [remAt_updRem s.invs i t hi j, TS_append_single]
    by_cases h : j = i
    · subst h
      rw [if_pos rfl]
      ring
    · rw [if_neg h, if_neg (fun hh => h hh.symm)]
      ring
  · show s.left - t + takeTotal (s.recs ++ [⟨i, t, meth, conf⟩]) =
      s.left + takeTotal s.recs
    rw [takeTotal_append]
    have hsingle : takeTotal [(⟨i, t, meth, conf⟩ : MatchT)] = t := by
      simp [takeTotal]
    rw [hsingle]
    ring
  · intro mt hmt
    rw [List.mem_singleton] at hmt
    subst hmt
    exact ⟨hi, ht, hm⟩

theorem remAt_nonneg_after_alloc (s : PState) (i : ℕ) (a : ℚ) (meth : String)
    (conf : ℚ) (hi : i < s.invs.length) :
    ∀ j, 0 ≤ remAt s.invs j →
      0 ≤ remAt (allocStep s i (min (remAt s.invs i) a) meth conf).invs j := by
  intro j hj
  show 0 ≤ remAt (updRem s.invs i (min (remAt s.invs i) a)) j
  rw [remAt_updRem s.invs i _ hi j]
  by_cases h : j = i
  · subst h
    rw [if_pos rfl]
    have hmin := min_le_left (remAt s.invs j) a
    linarith
  · rw [if_neg h]
    simpa using hj

theorem refMatchesGo_bound (ratioFn : String → String → ℚ) (tol : ℚ)
    (concept : String) (payRefs : List String) :
    ∀ (invs : List Invoice) (i0 : ℕ) (pr : ℕ × ℚ),
      pr ∈ refMatchesGo ratioFn tol concept payRefs i0 invs →
      pr.1 < i0 + invs.length := by
  intro invs
  induction invs with
  | nil => intro i0 pr hpr; cases hpr
  | cons inv rest ih =>
    intro i0 pr hpr
    rw [List.length_cons]
    simp only [refMatchesGo] at hpr
    split_ifs at hpr
    · have := ih (i0 + 1) pr hpr
      omega
    · rcases List.mem_cons.mp hpr with hh | hh
      · subst hh
        omega
      · have := ih (i0 + 1) pr hh
        omega
    · have := ih (i0 + 1) pr hpr
      omega

theorem stepRel_phase1Go (tol : ℚ) (htol : 0 ≤ tol) :
    ∀ (lst : List (ℕ × ℚ)) (s : PState),
      (∀ pr ∈ lst, pr.1 < s.invs.length) →
      StepRel (fun m => m = "Reference") s (phase1Go tol lst s) := by
  intro lst
  induction lst with
  | nil => intro s _; exact StepRel.reflex _ s
  | cons pr rest ih =>
    intro s hb
    obtain ⟨i, sc⟩ := pr
    simp only [phase1Go]
    split_ifs with h1 h2
    · exact StepRel.reflex _ s
    · have hi : i < s.invs.length := hb (i, sc) (List.mem_cons_self _ _)
      have h1' : tol < s.left := not_le.mp h1
      have ht : (0:ℚ) ≤ min (s.invs.getD i dummyInv).remaining s.left :=
        le_min (le_trans htol (le_of_lt h2)) (le_trans htol (le_of_lt h1'))
      have hrel := stepRel_allocStep (fun m => m = "Reference") s i
        (min (s.invs.getD i dummyInv).remaining s.left) "Reference" (refConf sc) hi ht rfl
      refine hrel.comp (ih _ fun pr' hpr' => ?_)
      rw [hrel.length]
      exact hb pr' (List.mem_cons_of_mem _ hpr')
    · exact ih s fun pr' hpr' => hb pr' (List.mem_cons_of_mem _ hpr')

theorem stepRel_phase1 (ratioFn : String → String → ℚ) (tol : ℚ) (htol : 0 ≤ tol)
    (concept : String) (payRefs : List String) (s : PState) :
    StepRel (fun m => m = "Reference") s (phase1 ratioFn tol concept payRefs s) := by
  unfold phase1
  refine stepRel_phase1Go tol htol _ s fun pr hpr => ?_
  rw [mem_sortStable] at hpr
  have := refMatchesGo_bound ratioFn tol concept payRefs s.invs 0 pr hpr
  omega

theorem phase2CandsGo_mem (tol left : ℚ) :
    ∀ (invs : List Invoice) (i0 j : ℕ),
      j ∈ phase2CandsGo tol left i0 invs ↔
      ∃ m, m < invs.length ∧ j = i0 + m ∧
        tol < (invs.getD m dummyInv).remaining ∧
        |(invs.getD m dummyInv).remaining - left| ≤ tol := by
  intro invs
  induction invs with
  | nil => intro i0 j; simp [phase2CandsGo]
  | cons inv rest ih =>
    intro i0 j
    simp only [phase2CandsGo]
    split_ifs with h1 h2
    · rw [ih (i0 + 1) j]
      constructor
      · rintro ⟨m, hm, rfl, hr, ha⟩
        exact ⟨m + 1, by rw [List.length_cons]; omega, by omega, hr, ha⟩
      · rintro ⟨m, hm, rfl, hr, ha⟩
        cases m with
        | zero => exact absurd hr (by simpa [List.getD] using h1)
        | succ n =>
          exact ⟨n, by rw [List.length_cons] at hm; omega, by omega,
            by simpa [List.getD] using hr, by simpa [List.getD] using ha⟩
    · rw [List.mem_cons, ih (i0 + 1) j]
      constructor
      · rintro (rfl | ⟨m, hm, rfl, hr, ha⟩)
        · exact ⟨0, by rw [List.length_cons]; omega, by omega,
            by simpa [List.getD] using not_le.mp h1, by simpa [List.getD] using h2⟩
        · exact ⟨m + 1, by rw [List.length_cons]; omega, by omega,
            by simpa [List.getD] using hr, by simpa [List.getD] using ha⟩
      · rintro ⟨m, hm, rfl, hr, ha⟩
        cases m with
        | zero => left; omega
        | succ n =>
          right
          exact ⟨n, by rw [List.length_cons] at hm; omega, by omega,
            by simpa [List.getD] using hr, by simpa [List.getD] using ha⟩
    · rw [ih (i0 + 1) j]
      constructor
      · rintro ⟨m, hm, rfl, hr, ha⟩
        exact ⟨m + 1, by rw [List.length_cons]; omega, by omega,
          by simpa [List.getD] using hr, by simpa [List.getD] using ha⟩
      · rintro ⟨m, hm, rfl, hr, ha⟩
        cases m with
        | zero =>
          exfalso
          apply h2
          · simpa [List.getD] using ha
        | succ n =>
          exact ⟨n, by rw [List.length_cons] at hm; omega, by omega,
            by simpa [List.getD] using hr, by simpa [List.getD] using ha⟩

theorem phase2Cands_mem (tol : ℚ) (s : PState) (j : ℕ) :
    j ∈ phase2Cands tol s ↔
      j < s.invs.length ∧ tol < (s.invs.getD j dummyInv).remaining ∧
        |(s.invs.getD j dummyInv).remaining - s.left| ≤ tol := by
  unfold phase2Cands
  rw [phase2CandsGo_mem]
  constructor
  · rintro ⟨m, hm, hj, hr, ha⟩
    have hjm : j = m := by omega
    subst hjm
    exact ⟨hm, hr, ha⟩
  · rintro ⟨hj, hr, ha⟩
    exact ⟨j, hj, by omega, hr, ha⟩

theorem phase2Sorted_sub (tol : ℚ) (payDate : Option Int) (s : PState) (j : ℕ) :
    j ∈ phase2Sorted tol payDate s → j ∈ phase2Cands tol s := by
  unfold phase2Sorted
  split_ifs
  · intro h
    exact (mem_sortStable _ _ _).mp h
  · exact id

theorem stepRel_phase2 (tol : ℚ) (htol : 0 ≤ tol) (payDate : Option Int)
    (s : PState) : StepRel (fun m => m = "Exact") s (phase2 tol payDate s) := by
  unfold phase2
  split_ifs with h1
  · exact StepRel.reflex _ s
  · cases hs : phase2Sorted tol payDate s with
    | nil => exact StepRel.reflex _ s
    | cons best rest =>
      have hmem : best ∈ phase2Cands tol s :=
        phase2Sorted_sub tol payDate s best (hs ▸ List.mem_cons_self _ _)
      have hlt : best < s.invs.length := ((phase2Cands_mem tol s best).mp hmem).1
      exact stepRel_allocStep _ s best s.left "Exact" _ hlt
        (le_trans htol (le_of_lt (not_le.mp h1))) rfl

theorem openIdxGo_mem (tol : ℚ) :
    ∀ (invs : List Invoice) (i0 : ℕ) (pr : ℕ × ℚ),
      pr ∈ openIdxGo tol i0 invs →
      ∃ m, m < invs.length ∧ pr.1 = i0 + m ∧
        (invs.getD m dummyInv).remaining = pr.2 ∧ tol < pr.2 := by
  intro invs
  induction invs with
  | nil => intro i0 pr hpr; cases hpr
  | cons inv rest ih =>
    intro i0 pr hpr
    simp only [openIdxGo] at hpr
    split_ifs at hpr with h
    · rcases List.mem_cons.mp hpr with hh | hh
      · subst hh
        exact ⟨0, by rw [List.length_cons]; omega, by omega, by simp [List.getD], h⟩
      · obtain ⟨m, hm, he, hr, ha⟩ := ih (i0 + 1) pr hh
        exact ⟨m + 1, by rw [List.length_cons]; omega, by omega,
          by simpa [List.getD] using hr, ha⟩
    · obtain ⟨m, hm, he, hr, ha⟩ := ih (i0 + 1) pr hpr
      exact ⟨m + 1, by rw [List.length_cons]; omega, by omega,
        by simpa [List.getD] using hr, ha⟩

theorem openIdxGo_facts (tol : ℚ) (invs : List Invoice) (pr : ℕ × ℚ)
    (hpr : pr ∈ openIdxGo tol 0 invs) :
    pr.1 < invs.length ∧ tol < pr.2 ∧ remAt invs pr.1 = pr.2 := by
  obtain ⟨m, hm, he, hr, ha⟩ := openIdxGo_mem tol invs 0 pr hpr
  have hp : pr.1 = m := by omega
  rw [hp]
  exact ⟨hm, ha, hr⟩

theorem stepRel_combo2Inner (tol : ℚ) (htol : 0 ≤ tol) (i1 : ℕ) (a1 : ℚ)
    (snap : List (ℕ × ℚ)) :
    ∀ (ks : List (ℕ × ℚ)) (s : PState),
      (∀ pr ∈ snap, pr.1 < s.invs.length ∧ tol < pr.2 ∧ 0 ≤ remAt s.invs pr.1) →
      (i1, a1) ∈ snap → (∀ pr ∈ ks, pr ∈ snap) →
      StepRel (fun m => m = "CombinedAmount") s (combo2Inner tol i1 a1 ks s) ∧
      (∀ pr ∈ snap, 0 ≤ remAt (combo2Inner tol i1 a1 ks s).invs pr.1) := by
  intro ks
  induction ks with
  | nil =>
    intro s hsnap h1 _
    exact ⟨StepRel.reflex _ s, fun pr hpr => (hsnap pr hpr).2.2⟩
  | cons pr2 rest ih =>
    intro s hsnap h1 hks
    obtain ⟨i2, a2⟩ := pr2
    simp only [combo2Inner]
    split_ifs with hc
    · obtain ⟨hi1, ha1, hr1⟩ := hsnap (i1, a1) h1
      have h2mem : (i2, a2) ∈ snap := hks (i2, a2) (List.mem_cons_self _ _)
      obtain ⟨hi2, ha2, hr2⟩ := hsnap (i2, a2) h2mem
      have rel1 := stepRel_allocStep (fun m => m = "CombinedAmount") s i1
        (min ((s.invs.getD i1 dummyInv).remaining) a1) "CombinedAmount" 85 hi1
        (le_min hr1 (le_trans htol (le_of_lt ha1))) rfl
      have nn1 : ∀ pr ∈ snap, 0 ≤ remAt (allocStep s i1
          (min ((s.invs.getD i1 dummyInv).remaining) a1) "CombinedAmount" 85).invs pr.1 :=
        fun pr hpr =>
          remAt_nonneg_after_alloc s i1 a1 "CombinedAmount" 85 hi1 pr.1 ((hsnap pr hpr).2.2)
      have hi2' : i2 < (allocStep s i1
          (min ((s.invs.getD i1 dummyInv).remaining) a1) "CombinedAmount" 85).invs.length := by
        rw [rel1.length]
        exact hi2
      have rel2 := stepRel_allocStep (fun m => m = "CombinedAmount") _ i2
        (min (((allocStep s i1 (min ((s.invs.getD i1 dummyInv).remaining) a1)
          "CombinedAmount" 85).invs.getD i2 dummyInv).remaining) a2) "CombinedAmount" 85
        hi2' (le_min (nn1 (i2, a2) h2mem) (le_trans htol (le_of_lt ha2))) rfl
      refine ⟨rel1.comp rel2, fun pr hpr => ?_⟩
      exact remAt_nonneg_after_alloc _ i2 a2 "CombinedAmount" 85 hi2' pr.1 (nn1 pr hpr)
    · exact ih s hsnap h1 fun pr hpr => hks pr (List.mem_cons_of_mem _ hpr)

theorem stepRel_combo2Outer (tol : ℚ) (htol : 0 ≤ tol) (snap : List (ℕ × ℚ)) :
    ∀ (lst : List (ℕ × ℚ)) (s : PState),
      (∀ pr ∈ snap, pr.1 < s.invs.length ∧ tol < pr.2 ∧ 0 ≤ remAt s.invs pr.1) →
      (∀ pr ∈ lst, pr ∈ snap) →
      StepRel (fun m => m = "CombinedAmount") s (combo2Outer tol lst s) := by
  intro lst
  induction lst with
  | nil => intro s _ _; exact StepRel.reflex _ s
  | cons pr1 rest ih =>
    intro s hsnap hsub
    obtain ⟨i1, a1⟩ := pr1
    simp only [combo2Outer]
    obtain ⟨rel1, nn1⟩ := stepRel_combo2Inner tol htol i1 a1 snap rest s hsnap
      (hsub (i1, a1) (List.mem_cons_self _ _))
      (fun pr hpr => hsub pr (List.mem_cons_of_mem _ hpr))
    split_ifs with h
    · exact rel1
    · refine rel1.comp (ih _ (fun pr hpr => ?_)
        (fun pr hpr => hsub pr (List.mem_cons_of_mem _ hpr)))
      obtain ⟨hb, ha, _⟩ := hsnap pr hpr
      exact ⟨by rw [rel1.length]; exact hb, ha, nn1 pr hpr⟩

theorem stepRel_combo3Take (tol : ℚ) (htol : 0 ≤ tol) (s : PState) (i : ℕ) (a : ℚ)
    (hi : i < s.invs.length) (ha : tol < a) :
    StepRel (fun m => m = "CombinedAmount") s (combo3Take tol s i a) ∧
    (∀ j, 0 ≤ remAt s.invs j → 0 ≤ remAt (combo3Take tol s i a).invs j) := by
  unfold combo3Take
  split_ifs with h
  · refine ⟨stepRel_allocStep _ s i _ "CombinedAmount" 80 hi
      (le_min (le_trans htol (le_of_lt h)) (le_trans htol (le_of_lt ha))) rfl,
      fun j hj => remAt_nonneg_after_alloc s i a "CombinedAmount" 80 hi j hj⟩
  · exact ⟨StepRel.reflex _ s, fun j hj => hj⟩

theorem stepRel_combo3Inner (tol : ℚ) (htol : 0 ≤ tol) (i1 : ℕ) (a1 : ℚ)
    (i2 : ℕ) (a2 : ℚ) (snap : List (ℕ × ℚ)) :
    ∀ (ks : List (ℕ × ℚ)) (s : PState),
      (∀ pr ∈ snap, pr.1 < s.invs.length ∧ tol < pr.2 ∧ 0 ≤ remAt s.invs pr.1) →
      (i1, a1) ∈ snap → (i2, a2) ∈ snap → (∀ pr ∈ ks, pr ∈ snap) →
      StepRel (fun m => m = "CombinedAmount") s (combo3Inner tol i1 a1 i2 a2 ks s) ∧
      (∀ pr ∈ snap, 0 ≤ remAt (combo3Inner tol i1 a1 i2 a2 ks s).invs pr.1) := by
  intro ks
  induction ks with
  | nil =>
    intro s hsnap _ _ _
    exact ⟨StepRel.reflex _ s, fun pr hpr => (hsnap pr hpr).2.2⟩
  | cons pr3 rest ih =>
    intro s hsnap h1 h2 hks
    obtain ⟨i3, a3⟩ := pr3
    simp only [combo3Inner]
    split_ifs with hc
    · have h3mem : (i3, a3) ∈ snap := hks (i3, a3) (List.mem_cons_self _ _)
      obtain ⟨hb1, ha1, hr1⟩ := hsnap (i1, a1) h1
      obtain ⟨hb2, ha2, _⟩ := hsnap (i2, a2) h2
      obtain ⟨hb3, ha3, _⟩ := hsnap (i3, a3) h3mem
      obtain ⟨relA, nnA⟩ := stepRel_combo3Take tol htol s i1 a1 hb1 ha1
      obtain ⟨relB, nnB⟩ := stepRel_combo3Take tol htol (combo3Take tol s i1 a1) i2 a2
        (by rw [relA.length]; exact hb2) ha2
      obtain ⟨relC, nnC⟩ := stepRel_combo3Take tol htol
        (combo3Take tol (combo3Take tol s i1 a1) i2 a2) i3 a3
        (by rw [relB.length, relA.length]; exact hb3) ha3
      refine ⟨(relA.comp relB).comp relC, fun pr hpr => ?_⟩
      exact nnC pr.1 (nnB pr.1 (nnA pr.1 (hsnap pr hpr).2.2))
    · exact ih s hsnap h1 h2 fun pr hpr => hks pr (List.mem_cons_of_mem _ hpr)

theorem stepRel_combo3Mid (tol : ℚ) (htol : 0 ≤ tol) (i1 : ℕ) (a1 : ℚ)
    (snap : List (ℕ × ℚ)) :
    ∀ (lst : List (ℕ × ℚ)) (s : PState),
      (∀ pr ∈ snap, pr.1 < s.invs.length ∧ tol < pr.2 ∧ 0 ≤ remAt s.invs pr.1) →
      (i1, a1) ∈ snap → (∀ pr ∈ lst, pr ∈ snap) →
      StepRel (fun m => m = "CombinedAmount") s (combo3Mid tol i1 a1 lst s) ∧
      (∀ pr ∈ snap, 0 ≤ remAt (combo3Mid tol i1 a1 lst s).invs pr.1) := by
  intro lst
  induction lst with
  | nil =>
    intro s hsnap _ _
    exact ⟨StepRel.reflex _ s, fun pr hpr => (hsnap pr hpr).2.2⟩
  | cons pr2 rest ih =>
    intro s hsnap h1 hsub
    obtain ⟨i2, a2⟩ := pr2
    simp only [combo3Mid]
    obtain ⟨relA, nnA⟩ := stepRel_combo3Inner tol htol i1 a1 i2 a2 snap rest s hsnap
      h1 (hsub (i2, a2) (List.mem_cons_self _ _))
      (fun pr hpr => hsub pr (List.mem_cons_of_mem _ hpr))
    split_ifs with h
    · exact ⟨relA, nnA⟩
    · have hsnap' : ∀ pr ∈ snap, pr.1 < (combo3Inner tol i1 a1 i2 a2 rest s).invs.length ∧
          tol < pr.2 ∧ 0 ≤ remAt (combo3Inner tol i1 a1 i2 a2 rest s).invs pr.1 :=
        fun pr hpr => ⟨by rw [relA.length]; exact (hsnap pr hpr).1, (hsnap pr hpr).2.1,
          nnA pr hpr⟩
      obtain ⟨relB, nnB⟩ := ih _ hsnap' h1
        (fun pr hpr => hsub pr (List.mem_cons_of_mem _ hpr))
      exact ⟨relA.comp relB, nnB⟩

theorem stepRel_combo3Outer (tol : ℚ) (htol : 0 ≤ tol) (snap : List (ℕ × ℚ)) :
    ∀ (lst : List (ℕ × ℚ)) (s : PState),
      (∀ pr ∈ snap, pr.1 < s.invs.length ∧ tol < pr.2 ∧ 0 ≤ remAt s.invs pr.1) →
      (∀ pr ∈ lst, pr ∈ snap) →
      StepRel (fun m => m = "CombinedAmount") s (combo3Outer tol lst s) := by
  intro lst
  induction lst with
  | nil => intro s _ _; exact StepRel.reflex _ s
  | cons pr1 rest ih =>
    intro s hsnap hsub
    obtain ⟨i1, a1⟩ := pr1
    simp only [combo3Outer]
    obtain ⟨relA, nnA⟩ := stepRel_combo3Mid tol htol i1 a1 snap rest s hsnap
      (hsub (i1, a1) (List.mem_cons_self _ _))
      (fun pr hpr => hsub pr (List.mem_cons_of_mem _ hpr))
    split_ifs with h
    · exact relA
    · refine relA.comp (ih _ (fun pr hpr => ⟨by rw [relA.length]; exact (hsnap pr hpr).1,
        (hsnap pr hpr).2.1, nnA pr hpr⟩)
        (fun pr hpr => hsub pr (List.mem_cons_of_mem _ hpr)))

theorem openIdxGo_good (tol : ℚ) (htol : 0 ≤ tol) (u : PState) :
    ∀ pr ∈ openIdxGo tol 0 u.invs,
      pr.1 < u.invs.length ∧ tol < pr.2 ∧ 0 ≤ remAt u.invs pr.1 := by
  intro pr hpr
  obtain ⟨hb, ha, hr⟩ := openIdxGo_facts tol u.invs pr hpr
  exact ⟨hb, ha, by rw [hr]; linarith⟩

theorem stepRel_phase3b (tol : ℚ) (htol : 0 ≤ tol) (s1 : PState) :
    StepRel (fun m => m = "CombinedAmount") s1 (phase3b tol s1) := by
  unfold phase3b
  split_ifs with h1 h2
  · exact StepRel.reflex _ s1
  · exact stepRel_combo3Outer tol htol _ _ s1 (openIdxGo_good tol htol s1) (fun pr h => h)
  · exact StepRel.reflex _ s1

theorem stepRel_phase3 (tol : ℚ) (htol : 0 ≤ tol) (s : PState) :
    StepRel (fun m => m = "CombinedAmount") s (phase3 tol s) := by
  unfold phase3
  split_ifs with h1 h2
  · exact StepRel.reflex _ s
  · exact (stepRel_combo2Outer tol htol _ _ s (openIdxGo_good tol htol s)
      (fun pr h => h)).comp (stepRel_phase3b tol htol _)
  · exact stepRel_phase3b tol htol s

theorem phase4CandsGo_bound (tol left : ℚ) (payD : Int) :
    ∀ (invs : List Invoice) (i0 : ℕ) (c : ℕ × Int × ℚ),
      c ∈ phase4CandsGo tol left payD i0 invs → c.1 < i0 + invs.length := by
  intro invs
  induction invs with
  | nil => intro i0 c hc; cases hc
  | cons inv rest ih =>
    intro i0 c hc
    rw [List.length_cons]
    cases hc0 : phase4Cand tol left payD inv with
    | none =>
      rw [show phase4CandsGo tol left payD i0 (inv :: rest) =
          phase4CandsGo tol left payD (i0 + 1) rest by
        simp [phase4CandsGo, hc0]] at hc
      have := ih (i0 + 1) c hc
      omega
    | some pr =>
      obtain ⟨days, arat⟩ := pr
      rw [show phase4CandsGo tol left payD i0 (inv :: rest) =
          (i0, days, arat) :: phase4CandsGo tol left payD (i0 + 1) rest by
        simp [phase4CandsGo, hc0]] at hc
      rcases List.mem_cons.mp hc with hh | hh
      · subst hh
        omega
      · have := ih (i0 + 1) c hh
        omega

theorem stepRel_phase4 (tol : ℚ) (htol : 0 ≤ tol) (payDate : Option Int)
    (s : PState) : StepRel (fun m => m = "DateProximity") s (phase4 tol payDate s) := by
  unfold phase4
  split_ifs with h1
  · exact StepRel.reflex _ s
  · cases payDate with
    | none => exact StepRel.reflex _ s
    | some payD =>
      dsimp only
      cases hs : sortStable (fun a b => decide (a.2.1 ≤ b.2.1))
          (phase4CandsGo tol s.left payD 0 s.invs) with
      | nil => exact StepRel.reflex _ s
      | cons c rest =>
        obtain ⟨i, days, arat⟩ := c
        dsimp only
        by_cases h2 : tol < (s.invs.getD i dummyInv).remaining
        · rw [if_pos h2]
          have hmem : (i, days, arat) ∈ phase4CandsGo tol s.left payD 0 s.invs := by
            have hm : (i, days, arat) ∈ sortStable (fun a b => decide (a.2.1 ≤ b.2.1))
                (phase4CandsGo tol s.left payD 0 s.invs) := by
              rw [hs]
              exact List.mem_cons_self _ _
            exact (mem_sortStable _ _ _).mp hm
          have hi : i < s.invs.length := by
            have := phase4CandsGo_bound tol s.left payD s.invs 0 (i, days, arat) hmem
            omega
          exact stepRel_allocStep _ s i _ "DateProximity" _ hi
            (le_min (le_trans htol (le_of_lt h2)) (le_trans htol (le_of_lt (not_le.mp h1)))) rfl
        · rw [if_neg h2]
          exact StepRel.reflex _ s

theorem stepRel_phase5Go (tol : ℚ) (htol : 0 ≤ tol) (payDate : Option Int) :
    ∀ (lst : List ℕ) (s : PState), (∀ j ∈ lst, j < s.invs.length) → tol < s.left →
      StepRel (fun m => m = "FIFO") s (phase5Go tol payDate lst s) := by
  intro lst
  induction lst with
  | nil => intro s _ _; exact StepRel.reflex _ s
  | cons j rest ih =>
    intro s hb hl
    by_cases h1 : (s.invs.getD j dummyInv).remaining ≤ tol
    · have e : phase5Go tol payDate (j :: rest) s = phase5Go tol payDate rest s := by
        simp only [phase5Go]
        rw [if_pos h1]
      rw [e]
      exact ih s (fun j' hj' => hb j' (List.mem_cons_of_mem _ hj')) hl
    · have hj : j < s.invs.length := hb j (List.mem_cons_self _ _)
      have ht : (0:ℚ) ≤ min (s.invs.getD j dummyInv).remaining s.left :=
        le_min (le_trans htol (le_of_lt (not_le.mp h1))) (le_trans htol (le_of_lt hl))
      have hrel := stepRel_allocStep (fun m => m = "FIFO") s j
        (min (s.invs.getD j dummyInv).remaining s.left) "FIFO"
        (fifoConf tol payDate j (s.invs.getD j dummyInv)
          (min (s.invs.getD j dummyInv).remaining s.left) s.left) hj ht rfl
      by_cases h2 : (allocStep s j (min (s.invs.getD j dummyInv).remaining s.left) "FIFO"
          (fifoConf tol payDate j (s.invs.getD j dummyInv)
            (min (s.invs.getD j dummyInv).remaining s.left) s.left)).left ≤ tol
      · have e : phase5Go tol payDate (j :: rest) s =
            allocStep s j (min (s.invs.getD j dummyInv).remaining s.left) "FIFO"
              (fifoConf tol payDate j (s.invs.getD j dummyInv)
                (min (s.invs.getD j dummyInv).remaining s.left) s.left) := by
          simp only [phase5Go]
          rw [if_neg h1, if_pos h2]
        rw [e]
        exact hrel
      · have e : phase5Go tol payDate (j :: rest) s =
            phase5Go tol payDate rest
              (allocStep s j (min (s.invs.getD j dummyInv).remaining s.left) "FIFO"
                (fifoConf tol payDate j (s.invs.getD j dummyInv)
                  (min (s.invs.getD j dummyInv).remaining s.left) s.left)) := by
          simp only [phase5Go]
          rw [if_neg h1, if_neg h2]
        rw [e]
        refine hrel.comp (ih _ (fun j' hj' => ?_) (not_le.mp h2))
        rw [hrel.length]
        exact hb j' (List.mem_cons_of_mem _ hj')

theorem stepRel_phase1Run (er : String → List String) (ratioFn : String → String → ℚ)
    (tol : ℚ) (htol : 0 ≤ tol) (p : Movement) (s0 : PState) :
    StepRel (fun m => m = "Reference") s0 (phase1Run er ratioFn tol p s0) := by
  unfold phase1Run
  split_ifs with h
  · exact stepRel_phase1 ratioFn tol htol _ _ s0
  · exact StepRel.reflex _ s0

theorem stepRel_phase5Run (tol : ℚ) (htol : 0 ≤ tol) (payDate : Option Int)
    (s4 : PState) : StepRel (fun m => m = "FIFO") s4 (phase5Run tol payDate s4) := by
  unfold phase5Run
  split_ifs with h
  · exact stepRel_phase5Go tol htol payDate _ s4
      (fun j hj => List.mem_range.mp hj) h
  · exact StepRel.reflex _ s4

theorem stepRel_core (er : String → List String) (ratioFn : String → String → ℚ)
    (tol : ℚ) (htol : 0 ≤ tol) (p : Movement) (invs : List Invoice) :
    StepRel phaseMethod (⟨invs, [], -p.neto_norm⟩ : PState)
      (processPaymentCore er ratioFn tol p invs) := by
  unfold processPaymentCore
  have h1 : StepRel phaseMethod (⟨invs, [], -p.neto_norm⟩ : PState)
      (phase1Run er ratioFn tol p ⟨invs, [], -p.neto_norm⟩) :=
    (stepRel_phase1Run er ratioFn tol htol p
      ⟨invs, [], -p.neto_norm⟩).mono (fun m hm => Or.inl hm)
  have h2 : ∀ s : PState, StepRel phaseMethod s (phase2 tol p.fecha s) :=
    fun s => (stepRel_phase2 tol htol p.fecha s).mono
      (fun m hm => Or.inr (Or.inl hm))
  have h3 : ∀ s : PState, StepRel phaseMethod s (phase3 tol s) :=
    fun s => (stepRel_phase3 tol htol s).mono
      (fun m hm => Or.inr (Or.inr (Or.inl hm)))
  have h4 : ∀ s : PState, StepRel phaseMethod s (phase4 tol p.fecha s) :=
    fun s => (stepRel_phase4 tol htol p.fecha s).mono
      (fun m hm => Or.inr (Or.inr (Or.inr (Or.inl hm))))
  have h5 : ∀ s : PState, StepRel phaseMethod s (phase5Run tol p.fecha s) :=
    fun s => (stepRel_phase5Run tol htol p.fecha s).mono
      (fun m hm => Or.inr (Or.inr (Or.inr (Or.inr hm))))
  exact (((h1.comp (h2 _)).comp (h3 _)).comp (h4 _)).comp (h5 _)

/-! ### C4: exact-amount phase candidacy and allocation -/

/-- C4.  In the exact-amount phase, an open invoice (remaining > ε)
qualifies as a candidate iff its remaining equals the payment's left
within ε, boundary inclusive; and when the phase fires (left > ε,
nonempty sorted candidate list), the head candidate is allocated the full
remaining payment amount as an "Exact" match with confidence 90 for a day
gap ≤ 30, 85 for ≤ 60 and 80 otherwise. -/
theorem c4_exact_amount_phase (tol : ℚ) (payDate : Option Int) (s : PState)
    (j : ℕ) (hj : j < s.invs.length)
    (hopen : tol < (s.invs.getD j dummyInv).remaining) :
    (j ∈ phase2Cands tol s ↔ |(s.invs.getD j dummyInv).remaining - s.left| ≤ tol) ∧
    ∀ best rest, ¬ s.left ≤ tol → phase2Sorted tol payDate s = best :: rest →
      best ∈ phase2Cands tol s ∧
      phase2 tol payDate s = allocStep s best s.left "Exact"
        (if dayGap payDate ((s.invs.getD best dummyInv).fecha) ≤ 30 then 90
         else if dayGap payDate ((s.invs.getD best dummyInv).fecha) ≤ 60 then 85
         else 80) := by
  constructor
  · rw [phase2Cands_mem]
    exact ⟨fun h => h.2.2, fun h => ⟨hj, hopen, h⟩⟩
  · intro best rest hleft hs
    refine ⟨phase2Sorted_sub tol payDate s best (hs ▸ List.mem_cons_self _ _), ?_⟩
    unfold phase2
    rw [if_neg hleft, hs]
    rfl

/-- C4, witness: tolerance 0.01, one open invoice of remaining 100 dated
10 days before the payment, payment left 100.01 — the difference is
exactly the tolerance, the invoice qualifies (boundary inclusive), and
the phase allocates the full 100.01 as Exact with confidence 90. -/
theorem c4_witness :
    (0 < ([(⟨"k", 100, some 0, 0, "abc", [],
        ⟨"t", some 0, 0, 100, none, "k", "", "c", "h", false⟩⟩ : Invoice)] : List Invoice).length ∧
      (1:ℚ)/100 < (([(⟨"k", 100, some 0, 0, "abc", [],
        ⟨"t", some 0, 0, 100, none, "k", "", "c", "h", false⟩⟩ : Invoice)] : List Invoice).getD 0 dummyInv).remaining) ∧
    0 ∈ phase2Cands (1/100)
      ⟨[⟨"k", 100, some 0, 0, "abc", [],
        ⟨"t", some 0, 0, 100, none, "k", "", "c", "h", false⟩⟩], [], 100 + 1/100⟩ ∧
    phase2 (1/100) (some 10)
      ⟨[⟨"k", 100, some 0, 0, "abc", [],
        ⟨"t", some 0, 0, 100, none, "k", "", "c", "h", false⟩⟩], [], 100 + 1/100⟩ =
      allocStep
        ⟨[⟨"k", 100, some 0, 0, "abc", [],
          ⟨"t", some 0, 0, 100, none, "k", "", "c", "h", false⟩⟩], [], 100 + 1/100⟩
        0 (100 + 1/100) "Exact" 90 := by
  have h := c4_exact_amount_phase (1/100) (some 10)
    ⟨[⟨"k", 100, some 0, 0, "abc", [],
      ⟨"t", some 0, 0, 100, none, "k", "", "c", "h", false⟩⟩], [], 100 + 1/100⟩
    0 (by decide) (by with_unfolding_all decide)
  refine ⟨⟨by decide, by with_unfolding_all decide⟩, ?_, ?_⟩
  · exact h.1.mpr (by with_unfolding_all decide)
  · have h2 := (h.2 0 [] (by with_unfolding_all decide)
      (by with_unfolding_all decide)).2
    rw [h2]
    rw [show (if dayGap (some 10) ((((⟨[⟨"k", 100, some 0, 0, "abc", [],
          ⟨"t", some 0, 0, 100, none, "k", "", "c", "h", false⟩⟩], [], 100 + 1/100⟩ :
            PState).invs.getD 0 dummyInv).fecha)) ≤ 30 then (90:ℚ)
        else if dayGap (some 10) ((((⟨[⟨"k", 100, some 0, 0, "abc", [],
          ⟨"t", some 0, 0, 100, none, "k", "", "c", "h", false⟩⟩], [], 100 + 1/100⟩ :
            PState).invs.getD 0 dummyInv).fecha)) ≤ 60 then (85:ℚ) else 80) = 90
      from by with_unfolding_all decide]

/-! ### C2: payment-side conservation -/

/-- C2 (amended).  For a payment run whose final unsatisfied amount is
nonnegative, the sum of the absolute allocated amounts of the payment's
allocation records plus the unallocated remainder (the amount carried by
the Unallocated record when one is emitted, zero otherwise) equals the
payment's absolute amount within the tolerance.  The combined-amount
phase can leave a negative remainder (overshoot up to 1 percent of the
remaining amount), in which case the bound fails: see the
counterexample. -/
theorem c2_payment_conservation (er : String → List String)
    (ratioFn : String → String → ℚ) (tol : ℚ) (p : Movement)
    (sid : ℕ) (t : String) (invs : List Invoice) (htol : 0 ≤ tol)
    (hleft : 0 ≤ (processPaymentCore er ratioFn tol p invs).left) :
    |(((processPaymentCore er ratioFn tol p invs).recs.map
          (mkAllocRow sid t p (processPaymentCore er ratioFn tol p invs).invs)).map
        (fun r => |r.Asignado|)).sum
      + (if tol < (processPaymentCore er ratioFn tol p invs).left
         then (processPaymentCore er ratioFn tol p invs).left else 0)
      - -p.neto_norm| ≤ tol := by
  have hrel := stepRel_core er ratioFn tol htol p invs
  obtain ⟨new, hnew, hfacts⟩ := hrel.recsNew
  have hleftEq := hrel.leftEq
  generalize hsdef : processPaymentCore er ratioFn tol p invs = s at hnew hfacts hleftEq hleft ⊢
  dsimp only at hnew hfacts hleftEq
  rw [List.nil_append] at hnew
  have htake : ∀ mt ∈ s.recs, 0 ≤ mt.take := by
    intro mt hm
    rw [hnew] at hm
    exact (hfacts mt hm).2.1
  have hmapmap : ((s.recs.map (mkAllocRow sid t p s.invs)).map
      (fun r => |r.Asignado|)).sum = takeTotal s.recs := by
    rw [List.map_map]
    have hcong : s.recs.map ((fun r => |r.Asignado|) ∘ mkAllocRow sid t p s.invs)
        = s.recs.map (fun mt => mt.take) := by
      apply List.map_congr_left
      intro mt hm
      show |(mkAllocRow sid t p s.invs mt).Asignado| = mt.take
      rw [show (mkAllocRow sid t p s.invs mt).Asignado = mt.take from rfl]
      exact abs_of_nonneg (htake mt hm)
    rw [hcong]
    rfl
  rw [hmapmap]
  rw [show takeTotal ([] : List MatchT) = 0 from rfl, add_zero] at hleftEq
  rw [abs_le]
  split_ifs with hcase
  · constructor <;> linarith
  · rw [not_lt] at hcase
    constructor <;> linarith

/-- C2, counterexample: invoices of 50.5 and 50.4 against a 100 payment
with tolerance 0.01.  The combined-amount phase accepts the pair (off by
0.9, within 1 percent of 100) and allocates both in full: the absolute
allocations sum to 100.9 and no Unallocated record is emitted, missing
the payment's 100 by 0.9 > 0.01. -/
theorem c2_counterexample :
    ¬ (|(((processPaymentCore erNone ratioZero (1/100) cPay100 [cInvA, cInvB]).recs.map
            (mkAllocRow 0 "t" cPay100
              (processPaymentCore erNone ratioZero (1/100) cPay100 [cInvA, cInvB]).invs)).map
          (fun r => |r.Asignado|)).sum
        + (if (1:ℚ)/100 < (processPaymentCore erNone ratioZero (1/100) cPay100 [cInvA, cInvB]).left
           then (processPaymentCore erNone ratioZero (1/100) cPay100 [cInvA, cInvB]).left else 0)
        - 100| ≤ 1/100) := by
  with_unfolding_all decide

/-- C2, witness: a 100 invoice settled exactly by a 100 payment — the
remainder is 0 and the absolute allocations sum to the payment amount
exactly. -/
theorem c2_witness :
    ((0:ℚ) ≤ 1/100 ∧
      0 ≤ (processPaymentCore erNone ratioZero (1/100) cPay100 [cInvC]).left) ∧
    |(((processPaymentCore erNone ratioZero (1/100) cPay100 [cInvC]).recs.map
          (mkAllocRow 0 "t" cPay100
            (processPaymentCore erNone ratioZero (1/100) cPay100 [cInvC]).invs)).map
        (fun r => |r.Asignado|)).sum
      + (if (1:ℚ)/100 < (processPaymentCore erNone ratioZero (1/100) cPay100 [cInvC]).left
         then (processPaymentCore erNone ratioZero (1/100) cPay100 [cInvC]).left else 0)
      - -cPay100.neto_norm| ≤ 1/100 :=
  ⟨⟨by with_unfolding_all decide, by with_unfolding_all decide⟩,
   c2_payment_conservation erNone ratioZero (1/100) cPay100 0 "t" [cInvC]
     (by with_unfolding_all decide) (by with_unfolding_all decide)⟩

/-! ### C3: reference matching takes priority over exact amount -/

/-- C3 (amended).  When the reference scan finds exactly one match — the
invoice whose document text occurs in the payment concept, at the 0.95
substring score — phase 1 allocates that invoice via "Reference", taking
the minimum of its remaining and the payment amount; and whenever phase 1
leaves at most the tolerance unsatisfied, none of the later phases (in
particular the exact-amount phase 2) adds any further allocation.  The
unconditional exclusion claimed by the spec is false: when the referenced
invoice only absorbs part of the payment, phase 2 can still allocate the
rest to an amount-matching invoice (see the counterexample). -/
theorem c3_reference_priority (er : String → List String)
    (ratioFn : String → String → ℚ) (tol : ℚ) (p : Movement)
    (invs : List Invoice) (r : ℕ)
    (hguard : tol < -p.neto_norm) (hconcept : lowerConcept p ≠ "")
    (hscan : refMatchesGo ratioFn tol (lowerConcept p) (payRefsOf er p) 0 invs
      = [(r, 95/100)])
    (hropen : tol < (invs.getD r dummyInv).remaining) :
    (phase1Run er ratioFn tol p ⟨invs, [], -p.neto_norm⟩).recs
      = [⟨r, min ((invs.getD r dummyInv).remaining) (-p.neto_norm),
          "Reference", refConf (95/100)⟩] ∧
    ((phase1Run er ratioFn tol p ⟨invs, [], -p.neto_norm⟩).left ≤ tol →
      (processPaymentCore er ratioFn tol p invs).recs
        = (phase1Run er ratioFn tol p ⟨invs, [], -p.neto_norm⟩).recs) := by
  have hrun : phase1Run er ratioFn tol p ⟨invs, [], -p.neto_norm⟩
      = allocStep ⟨invs, [], -p.neto_norm⟩ r
          (min ((invs.getD r dummyInv).remaining) (-p.neto_norm))
          "Reference" (refConf (95/100)) := by
    unfold phase1Run
    rw [if_pos ⟨hguard, Or.inl hconcept⟩]
    unfold phase1
    rw [hscan]
    rw [show sortStable (fun a b => decide (b.2 ≤ a.2)) [((r : ℕ), (95/100 : ℚ))]
        = [(r, 95/100)] from rfl]
    unfold phase1Go
    rw [if_neg (not_le.mpr hguard), if_pos hropen]
    rfl
  constructor
  · rw [hrun]
    rfl
  · intro hdone
    have e2 : phase2 tol p.fecha (phase1Run er ratioFn tol p ⟨invs, [], -p.neto_norm⟩)
        = phase1Run er ratioFn tol p ⟨invs, [], -p.neto_norm⟩ := by
      unfold phase2
      rw [if_pos hdone]
    have e3 : phase3 tol (phase1Run er ratioFn tol p ⟨invs, [], -p.neto_norm⟩)
        = phase1Run er ratioFn tol p ⟨invs, [], -p.neto_norm⟩ := by
      unfold phase3
      rw [if_pos hdone]
    have e4 : phase4 tol p.fecha (phase1Run er ratioFn tol p ⟨invs, [], -p.neto_norm⟩)
        = phase1Run er ratioFn tol p ⟨invs, [], -p.neto_norm⟩ := by
      unfold phase4
      rw [if_pos hdone]
    have e5 : phase5Run tol p.fecha (phase1Run er ratioFn tol p ⟨invs, [], -p.neto_norm⟩)
        = phase1Run er ratioFn tol p ⟨invs, [], -p.neto_norm⟩ := by
      unfold phase5Run
      rw [if_neg (not_lt.mpr hdone)]
    show (phase5Run tol p.fecha (phase4 tol p.fecha (phase3 tol (phase2 tol p.fecha
      (phase1Run er ratioFn tol p ⟨invs, [], -p.neto_norm⟩))))).recs = _
    rw [e2, e3, e4, e5]

/-- C3, counterexample: the payment concept "pago abc" contains the
referenced invoice's document text "abc" (length 3), and the payment's
100 also matches the other invoice's 99.99 within the 0.01 tolerance;
phase 1 only absorbs the referenced invoice's 0.02 remainder, and phase 2
then allocates the 99.98 rest to the amount-matching invoice as an
"Exact" match — contradicting the claimed exclusion. -/
theorem c3_counterexample :
    strContains cInvRsmall.doc_ref (lowerConcept cPayRef) = true ∧
    3 ≤ cInvRsmall.doc_ref.length ∧
    |cInvO.remaining - -cPayRef.neto_norm| ≤ 1/100 ∧
    cInvRsmall.doc_key ≠ cInvO.doc_key ∧
    ((processPaymentCore erNone ratioZero (1/100) cPayRef [cInvRsmall, cInvO]).recs.any
      (fun mt => decide (mt.idx = 1) && decide (mt.method = "Exact"))) = true := by
  refine ⟨by with_unfolding_all decide, by decide, by with_unfolding_all decide,
    by decide, by with_unfolding_all decide⟩

/-- C3, witness: a full-cover referenced invoice — the single reference
match absorbs the whole payment, and no later phase adds a record. -/
theorem c3_witness :
    ((1:ℚ)/100 < -cPayRef.neto_norm ∧
      refMatchesGo ratioZero (1/100) (lowerConcept cPayRef)
        (payRefsOf erNone cPayRef) 0 [cInvR] = [(0, 95/100)]) ∧
    (phase1Run erNone ratioZero (1/100) cPayRef
        ⟨[cInvR], [], -cPayRef.neto_norm⟩).recs
      = [⟨0, min (([cInvR].getD 0 dummyInv).remaining) (-cPayRef.neto_norm),
          "Reference", refConf (95/100)⟩] ∧
    (processPaymentCore erNone ratioZero (1/100) cPayRef [cInvR]).recs
      = (phase1Run erNone ratioZero (1/100) cPayRef
          ⟨[cInvR], [], -cPayRef.neto_norm⟩).recs := by
  have h := c3_reference_priority erNone ratioZero (1/100) cPayRef [cInvR] 0
    (by with_unfolding_all decide) (by with_unfolding_all decide)
    (by with_unfolding_all decide) (by with_unfolding_all decide)
  exact ⟨⟨by with_unfolding_all decide, by with_unfolding_all decide⟩,
    h.1, h.2 (by with_unfolding_all decide)⟩

/-! ### C1 machinery: per-key bookkeeping lemmas -/

theorem countP_one_mem_eq {α : Type} (p : α → Bool) {l : List α}
    (h : l.countP p = 1) {a b : α} (ha : a ∈ l) (hpa : p a) (hb : b ∈ l)
    (hpb : p b) : a = b := by
  rw [List.countP_eq_length_filter] at h
  obtain ⟨c, hc⟩ := List.length_eq_one.mp h
  have h1 : a ∈ l.filter p := List.mem_filter.mpr ⟨ha, hpa⟩
  have h2 : b ∈ l.filter p := List.mem_filter.mpr ⟨hb, hpb⟩
  rw [hc, List.mem_singleton] at h1 h2
  rw [h1, h2]

theorem countP_one_filter_eq {α : Type} (p : α → Bool) {l : List α}
    (h : l.countP p = 1) {a : α} (ha : a ∈ l) (hpa : p a) :
    l.filter p = [a] := by
  rw [List.countP_eq_length_filter] at h
  obtain ⟨c, hc⟩ := List.length_eq_one.mp h
  have h1 : a ∈ l.filter p := List.mem_filter.mpr ⟨ha, hpa⟩
  rw [hc, List.mem_singleton] at h1
  rw [hc, h1]

theorem countP_one_pos_eq {α : Type} (p : α → Bool) (d : α) :
    ∀ (l : List α), l.countP p = 1 →
      ∀ i j, i < l.length → j < l.length →
        p (l.getD i d) → p (l.getD j d) → i = j := by
  intro l
  induction l with
  | nil => intro h i j hi; simp at hi
  | cons a t ih =>
    intro h i j hi hj hpi hpj
    rw [List.countP_cons] at h
    rw [List.length_cons] at hi hj
    by_cases hpa : p a
    · rw [if_pos hpa] at h
      have ht : t.countP p = 0 := by omega
      have hnone := List.countP_eq_zero.mp ht
      cases i with
      | zero =>
        cases j with
        | zero => rfl
        | succ j' =>
          exfalso
          rw [List.getD_cons_succ] at hpj
          have hj' : j' < t.length := by omega
          rw [List.getD_eq_getElem t d hj'] at hpj
          exact hnone _ (List.getElem_mem hj') hpj
      | succ i' =>
        exfalso
        rw [List.getD_cons_succ] at hpi
        have hi' : i' < t.length := by omega
        rw [List.getD_eq_getElem t d hi'] at hpi
        exact hnone _ (List.getElem_mem hi') hpi
    · rw [if_neg hpa, add_zero] at h
      cases i with
      | zero =>
        rw [List.getD_cons_zero] at hpi
        exact absurd hpi hpa
      | succ i' =>
        cases j with
        | zero =>
          rw [List.getD_cons_zero] at hpj
          exact absurd hpj hpa
        | succ j' =>
          rw [List.getD_cons_succ] at hpi hpj
          have hi' : i' < t.length := by omega
          have hj' : j' < t.length := by omega
          have := ih h i' j' hi' hj' hpi hpj
          omega

theorem rowsFor_append (r1 r2 : List OutRow) (k : String) :
    rowsFor (r1 ++ r2) k = rowsFor r1 k ++ rowsFor r2 k := by
  unfold rowsFor
  exact List.filter_append r1 r2

theorem sumA_append (r1 r2 : List OutRow) (k : String) :
    sumA (r1 ++ r2) k = sumA r1 k + sumA r2 k := by
  unfold sumA
  rw [rowsFor_append, List.map_append, List.sum_append]

theorem sumA_congr {r1 r2 : List OutRow} {k : String}
    (h : rowsFor r1 k = rowsFor r2 k) : sumA r1 k = sumA r2 k := by
  unfold sumA
  rw [h]

theorem lastResD_congr {r1 r2 : List OutRow} {k : String}
    (h : rowsFor r1 k = rowsFor r2 k) : lastResD r1 k = lastResD r2 k := by
  unfold lastResD
  rw [h]

theorem sumA_eq_zero {rows : List OutRow} {k : String}
    (h : rowsFor rows k = []) : sumA rows k = 0 := by
  unfold sumA
  rw [h]
  rfl

theorem lastResD_eq_zero {rows : List OutRow} {k : String}
    (h : rowsFor rows k = []) : lastResD rows k = 0 := by
  unfold lastResD
  rw [h]
  rfl

theorem shape_length {l1 l2 : List Invoice}
    (h : l1.map eraseRem = l2.map eraseRem) : l1.length = l2.length := by
  have := congrArg List.length h
  simpa using this

theorem shape_docKeys {l1 l2 : List Invoice}
    (h : l1.map eraseRem = l2.map eraseRem) :
    l1.map (fun x => x.doc_key) = l2.map (fun x => x.doc_key) := by
  have e1 : l1.map (fun x => x.doc_key)
      = (l1.map eraseRem).map (fun x => x.doc_key) := by
    rw [List.map_map]
    exact rfl
  have e2 : l2.map (fun x => x.doc_key)
      = (l2.map eraseRem).map (fun x => x.doc_key) := by
    rw [List.map_map]
    exact rfl
  rw [e1, e2, h]

theorem shape_getD_key {l1 l2 : List Invoice}
    (h : l1.map eraseRem = l2.map eraseRem) (j : ℕ) :
    (l1.getD j dummyInv).doc_key = (l2.getD j dummyInv).doc_key := by
  have hmap : (l1.map eraseRem).getD j (eraseRem dummyInv)
      = (l2.map eraseRem).getD j (eraseRem dummyInv) := by rw [h]
  rw [List.getD_map l1 dummyInv eraseRem, List.getD_map l2 dummyInv eraseRem] at hmap
  have h2 := congrArg Invoice.doc_key hmap
  exact h2

theorem shape_countP_key {l1 l2 : List Invoice}
    (h : l1.map eraseRem = l2.map eraseRem) (k : String) :
    l1.countP (fun x => decide (x.doc_key = k))
      = l2.countP (fun x => decide (x.doc_key = k)) := by
  have e1 : (l1.map eraseRem).countP (fun x => decide (x.doc_key = k))
      = l1.countP (fun x => decide (x.doc_key = k)) :=
    List.countP_map (fun x => decide (x.doc_key = k)) eraseRem l1
  have e2 : (l2.map eraseRem).countP (fun x => decide (x.doc_key = k))
      = l2.countP (fun x => decide (x.doc_key = k)) :=
    List.countP_map (fun x => decide (x.doc_key = k)) eraseRem l2
  rw [← e1, ← e2, h]

theorem shape_key_absent {l1 l2 : List Invoice}
    (h : l1.map eraseRem = l2.map eraseRem) (k : String)
    (habs : ∀ x ∈ l2, x.doc_key ≠ k) : ∀ x ∈ l1, x.doc_key ≠ k := by
  intro x hx
  have hxmap : x.doc_key ∈ l1.map (fun y => y.doc_key) :=
    List.mem_map.mpr ⟨x, hx, rfl⟩
  rw [shape_docKeys h] at hxmap
  obtain ⟨y, hy, hyx⟩ := List.mem_map.mp hxmap
  rw [← hyx]
  exact habs y hy

theorem rowsFor_recsMap (sid : ℕ) (t : String) (p : Movement)
    (sinvs : List Invoice) (recs : List MatchT) (k : String) (i : ℕ)
    (hi : i < sinvs.length)
    (hiKey : ∀ j, j < sinvs.length →
      ((sinvs.getD j dummyInv).doc_key = k ↔ j = i))
    (hbound : ∀ mt ∈ recs, mt.idx < sinvs.length) :
    rowsFor (recs.map (mkAllocRow sid t p sinvs)) k
      = (recs.filter (fun mt => decide (mt.idx = i))).map
          (mkAllocRow sid t p sinvs) := by
  unfold rowsFor
  rw [List.filter_map]
  congr 1
  apply List.filter_congr
  intro mt hm
  show decide ((mkAllocRow sid t p sinvs mt).DocKey = some k) = decide (mt.idx = i)
  rw [show (mkAllocRow sid t p sinvs mt).DocKey
      = some ((sinvs.getD mt.idx dummyInv).doc_key) from rfl]
  apply decide_eq_decide.mpr
  constructor
  · intro hsome
    exact (hiKey mt.idx (hbound mt hm)).mp (Option.some.inj hsome)
  · intro hidx
    exact congrArg some ((hiKey mt.idx (hbound mt hm)).mpr hidx)

theorem sumA_recsMap (sid : ℕ) (t : String) (p : Movement)
    (sinvs : List Invoice) (recs : List MatchT) (k : String) (i : ℕ)
    (hi : i < sinvs.length)
    (hiKey : ∀ j, j < sinvs.length →
      ((sinvs.getD j dummyInv).doc_key = k ↔ j = i))
    (hbound : ∀ mt ∈ recs, mt.idx < sinvs.length) :
    sumA (recs.map (mkAllocRow sid t p sinvs)) k = TS recs i := by
  unfold sumA
  rw [rowsFor_recsMap sid t p sinvs recs k i hi hiKey hbound, List.map_map]
  rfl

theorem residual_recsMap (sid : ℕ) (t : String) (p : Movement)
    (sinvs : List Invoice) (recs : List MatchT) (k : String) (i : ℕ)
    (hi : i < sinvs.length)
    (hiKey : ∀ j, j < sinvs.length →
      ((sinvs.getD j dummyInv).doc_key = k ↔ j = i))
    (hbound : ∀ mt ∈ recs, mt.idx < sinvs.length) :
    ∀ row ∈ rowsFor (recs.map (mkAllocRow sid t p sinvs)) k,
      row.ResidualFacturaTras = some (remAt sinvs i) := by
  intro row hrow
  rw [rowsFor_recsMap sid t p sinvs recs k i hi hiKey hbound] at hrow
  obtain ⟨mt, hmt, hmtrow⟩ := List.mem_map.mp hrow
  have hidx : mt.idx = i := of_decide_eq_true (List.mem_filter.mp hmt).2
  rw [← hmtrow]
  show some ((sinvs.getD mt.idx dummyInv).remaining) = some (remAt sinvs i)
  rw [hidx]
  rfl

theorem rowsFor_recsMap_nil (sid : ℕ) (t : String) (p : Movement)
    (sinvs : List Invoice) (recs : List MatchT) (k : String)
    (hnone : ∀ x ∈ sinvs, x.doc_key ≠ k)
    (hbound : ∀ mt ∈ recs, mt.idx < sinvs.length) :
    rowsFor (recs.map (mkAllocRow sid t p sinvs)) k = [] := by
  unfold rowsFor
  rw [List.filter_map]
  have hfil : recs.filter
      ((fun r => decide (r.DocKey = some k)) ∘ mkAllocRow sid t p sinvs) = [] := by
    apply List.filter_eq_nil.mpr
    intro mt hm
    show ¬ ((fun r => decide (r.DocKey = some k)) ∘ mkAllocRow sid t p sinvs) mt = true
    show ¬ decide ((mkAllocRow sid t p sinvs mt).DocKey = some k) = true
    rw [show (mkAllocRow sid t p sinvs mt).DocKey
        = some ((sinvs.getD mt.idx dummyInv).doc_key) from rfl]
    intro hdec
    have hk := Option.some.inj (of_decide_eq_true hdec)
    have hmem : sinvs.getD mt.idx dummyInv ∈ sinvs := by
      rw [List.getD_eq_getElem _ _ (hbound mt hm)]
      exact List.getElem_mem _
    exact hnone _ hmem hk
  rw [hfil]
  rfl

theorem processPayment_open_eq (er : String → List String)
    (ratioFn : String → String → ℚ) (st : RState) (p : Movement) (t : String) :
    (processPayment er ratioFn st p t).open_invoices
      = (processPaymentCore er ratioFn st.tol p st.open_invoices).invs.filter
          (fun inv => decide (st.tol < inv.remaining)) := rfl

theorem processPayment_tol_eq (er : String → List String)
    (ratioFn : String → String → ℚ) (st : RState) (p : Movement) (t : String) :
    (processPayment er ratioFn st p t).tol = st.tol := rfl

theorem processPayment_rowsFor (er : String → List String)
    (ratioFn : String → String → ℚ) (st : RState) (p : Movement) (t : String)
    (k : String) :
    rowsFor (processPayment er ratioFn st p t).out_rows k
      = rowsFor st.out_rows k
        ++ rowsFor ((processPaymentCore er ratioFn st.tol p st.open_invoices).recs.map
            (mkAllocRow st.set_id t p
              (processPaymentCore er ratioFn st.tol p st.open_invoices).invs)) k := by
  unfold processPayment
  dsimp only
  split_ifs with hcase
  · rw [rowsFor_append, rowsFor_append]
    rw [show rowsFor [unallocRow st.set_id t p
        (processPaymentCore er ratioFn st.tol p st.open_invoices).left
        ((processPaymentCore er ratioFn st.tol p st.open_invoices).invs.filter
          (fun inv => decide (st.tol < inv.remaining)))] k = [] from rfl]
    rw [List.append_nil]
  · rw [rowsFor_append]

theorem lastResD_of_getLast {rows : List OutRow} {k : String} {r : OutRow}
    (h : (rowsFor rows k).getLast? = some r) :
    lastResD rows k = r.ResidualFacturaTras.getD 0 := by
  unfold lastResD
  rw [h]

theorem processPayment_keyOpen (er : String → List String)
    (ratioFn : String → String → ℚ) (st : RState) (p : Movement) (t : String)
    (k : String) (a : ℚ) (htol : 0 ≤ st.tol) (ha : 0 < a)
    (h : KeyOpen st.out_rows st.open_invoices k a) :
    KeyOpen (processPayment er ratioFn st p t).out_rows
        (processPayment er ratioFn st p t).open_invoices k a ∨
    KeyClosed st.tol (processPayment er ratioFn st p t).out_rows
        (processPayment er ratioFn st p t).open_invoices k a := by
  obtain ⟨hcount, inv, hmem, hkey, hsum, hsync⟩ := h
  obtain ⟨i, hi, hgi⟩ := List.mem_iff_getElem.mp hmem
  have hgiD : st.open_invoices.getD i dummyInv = inv := by
    rw [List.getD_eq_getElem _ _ hi, hgi]
  have hrel := stepRel_core er ratioFn st.tol htol p st.open_invoices
  obtain ⟨new, hnew0, hfacts0⟩ := hrel.recsNew
  have hshape := hrel.shape
  have hrem0 := hrel.rem
  have hRF := processPayment_rowsFor er ratioFn st p t k
  have hOP := processPayment_open_eq er ratioFn st p t
  generalize hsdef : processPaymentCore er ratioFn st.tol p st.open_invoices = s
      at hnew0 hfacts0 hshape hrem0 hRF hOP
  dsimp only at hnew0 hfacts0 hshape hrem0
  rw [List.nil_append] at hnew0
  have hlen : s.invs.length = st.open_invoices.length := shape_length hshape
  have hremS : ∀ j, remAt s.invs j = remAt st.open_invoices j - TS s.recs j := by
    intro j
    have hj := hrem0 j
    rw [show TS ([] : List MatchT) j = 0 from rfl, add_zero] at hj
    linarith
  have hbound : ∀ mt ∈ s.recs, mt.idx < s.invs.length := by
    intro mt hm
    rw [hnew0] at hm
    rw [hlen]
    exact (hfacts0 mt hm).1
  have hkeyi : (st.open_invoices.getD i dummyInv).doc_key = k := by
    rw [hgiD]
    exact hkey
  have hIdxKey : ∀ j, j < st.open_invoices.length →
      ((st.open_invoices.getD j dummyInv).doc_key = k ↔ j = i) := by
    intro j hj
    constructor
    · intro hjk
      exact countP_one_pos_eq (fun x => decide (x.doc_key = k)) dummyInv
        st.open_invoices hcount j i hj hi (decide_eq_true hjk) (decide_eq_true hkeyi)
    · intro hji
      rw [hji]
      exact hkeyi
  have hIdxKeyS : ∀ j, j < s.invs.length →
      ((s.invs.getD j dummyInv).doc_key = k ↔ j = i) := by
    intro j hj
    rw [shape_getD_key hshape j]
    exact hIdxKey j (by omega)
  have hiS : i < s.invs.length := by omega
  have hcountS : s.invs.countP (fun x => decide (x.doc_key = k)) = 1 := by
    rw [shape_countP_key hshape]
    exact hcount
  have hinvmem : s.invs.getD i dummyInv ∈ s.invs := by
    rw [List.getD_eq_getElem _ _ hiS]
    exact List.getElem_mem hiS
  have hkeyS : (s.invs.getD i dummyInv).doc_key = k := (hIdxKeyS i hiS).mpr rfl
  have hremI : (s.invs.getD i dummyInv).remaining
      = inv.remaining - TS s.recs i := by
    have hx := hremS i
    unfold remAt at hx
    rw [hgiD] at hx
    exact hx
  have hRFnew := rowsFor_recsMap st.set_id t p s.invs s.recs k i hiS hIdxKeyS hbound
  have hSA : sumA (processPayment er ratioFn st p t).out_rows k
      = sumA st.out_rows k + TS s.recs i := by
    have h1 : sumA (processPayment er ratioFn st p t).out_rows k
        = sumA st.out_rows k
          + sumA (s.recs.map (mkAllocRow st.set_id t p s.invs)) k := by
      unfold sumA
      rw [hRF, List.map_append, List.sum_append]
    rw [h1, sumA_recsMap st.set_id t p s.invs s.recs k i hiS hIdxKeyS hbound]
  by_cases hsurv : st.tol < (s.invs.getD i dummyInv).remaining
  · left
    refine ⟨?_, s.invs.getD i dummyInv, ?_, hkeyS, ?_, ?_⟩
    · rw [hOP]
      have e1 : (s.invs.filter (fun inv => decide (st.tol < inv.remaining))).countP
            (fun x => decide (x.doc_key = k))
          = s.invs.countP (fun x => decide (x.doc_key = k)
              && decide (st.tol < x.remaining)) :=
        List.countP_filter _ _ _
      have hub : s.invs.countP (fun x => decide (x.doc_key = k)
            && decide (st.tol < x.remaining)) ≤ 1 := by
        rw [← hcountS]
        exact List.countP_mono_left (fun x hx hand => by
          rw [Bool.and_eq_true] at hand
          exact hand.1)
      have hlb : 0 < s.invs.countP (fun x => decide (x.doc_key = k)
            && decide (st.tol < x.remaining)) := by
        apply List.countP_pos_iff.mpr
        refine ⟨s.invs.getD i dummyInv, hinvmem, ?_⟩
        rw [Bool.and_eq_true]
        exact ⟨decide_eq_true hkeyS, decide_eq_true hsurv⟩
      rw [e1]
      omega
    · rw [hOP]
      exact List.mem_filter.mpr ⟨hinvmem, decide_eq_true hsurv⟩
    · rw [hSA, hremI]
      linarith [hsum]
    · cases hc : rowsFor (s.recs.map (mkAllocRow st.set_id t p s.invs)) k with
      | nil =>
        have hfil : s.recs.filter (fun mt => decide (mt.idx = i)) = [] := by
          have hx := hRFnew
          rw [hc] at hx
          exact List.map_eq_nil.mp hx.symm
        have hTS0 : TS s.recs i = 0 := by
          unfold TS
          rw [hfil]
          rfl
        have hRsame : rowsFor (processPayment er ratioFn st p t).out_rows k
            = rowsFor st.out_rows k := by
          rw [hRF, hc, List.append_nil]
        rcases hsync with hnil | ⟨r, hlast, hres⟩
        · left
          rw [hRsame]
          exact hnil
        · right
          refine ⟨r, by rw [hRsame]; exact hlast, ?_⟩
          rw [hremI, hTS0, sub_zero]
          exact hres
      | cons r0 rest0 =>
        right
        have hne : rowsFor (s.recs.map (mkAllocRow st.set_id t p s.invs)) k ≠ [] := by
          rw [hc]
          exact List.cons_ne_nil _ _
        have hLast : (rowsFor (processPayment er ratioFn st p t).out_rows k).getLast?
            = (rowsFor (s.recs.map (mkAllocRow st.set_id t p s.invs)) k).getLast? := by
          rw [hRF]
          exact List.getLast?_append_of_ne_nil _ hne
        obtain ⟨rl, hrl⟩ : ∃ rl,
            (rowsFor (s.recs.map (mkAllocRow st.set_id t p s.invs)) k).getLast?
              = some rl := by
          cases hgl : (rowsFor (s.recs.map (mkAllocRow st.set_id t p s.invs)) k).getLast? with
          | none => exact absurd (List.getLast?_eq_none_iff.mp hgl) hne
          | some rl => exact ⟨rl, rfl⟩
        have hrlres := residual_recsMap st.set_id t p s.invs s.recs k i hiS hIdxKeyS
          hbound rl (List.mem_of_mem_getLast? hrl)
        refine ⟨rl, by rw [hLast]; exact hrl, ?_⟩
        rw [hrlres]
        rfl
  · right
    constructor
    · rw [hOP]
      intro x hx hxk
      obtain ⟨hxmem, hxq⟩ := List.mem_filter.mp hx
      obtain ⟨j, hj, hgj⟩ := List.mem_iff_getElem.mp hxmem
      have hgjD : s.invs.getD j dummyInv = x := by
        rw [List.getD_eq_getElem _ _ hj, hgj]
      have hji : j = i := (hIdxKeyS j hj).mp (by rw [hgjD]; exact hxk)
      rw [hji] at hgjD
      rw [hgjD] at hsurv
      exact hsurv (of_decide_eq_true hxq)
    · cases hc : rowsFor (s.recs.map (mkAllocRow st.set_id t p s.invs)) k with
      | cons r0 rest0 =>
        have hne : rowsFor (s.recs.map (mkAllocRow st.set_id t p s.invs)) k ≠ [] := by
          rw [hc]
          exact List.cons_ne_nil _ _
        have hLast : (rowsFor (processPayment er ratioFn st p t).out_rows k).getLast?
            = (rowsFor (s.recs.map (mkAllocRow st.set_id t p s.invs)) k).getLast? := by
          rw [hRF]
          exact List.getLast?_append_of_ne_nil _ hne
        obtain ⟨rl, hrl⟩ : ∃ rl,
            (rowsFor (s.recs.map (mkAllocRow st.set_id t p s.invs)) k).getLast?
              = some rl := by
          cases hgl : (rowsFor (s.recs.map (mkAllocRow st.set_id t p s.invs)) k).getLast? with
          | none => exact absurd (List.getLast?_eq_none_iff.mp hgl) hne
          | some rl => exact ⟨rl, rfl⟩
        have hrlres := residual_recsMap st.set_id t p s.invs s.recs k i hiS hIdxKeyS
          hbound rl (List.mem_of_mem_getLast? hrl)
        have hLRD : lastResD (processPayment er ratioFn st p t).out_rows k
            = (s.invs.getD i dummyInv).remaining := by
          rw [lastResD_of_getLast (by rw [hLast]; exact hrl), hrlres]
          rfl
        rw [hLRD, hSA, hremI]
        have hz : sumA st.out_rows k + TS s.recs i
            + (inv.remaining - TS s.recs i) - a = 0 := by
          linarith [hsum]
        rw [hz, abs_zero]
        exact htol
      | nil =>
        have hfil : s.recs.filter (fun mt => decide (mt.idx = i)) = [] := by
          have hx := hRFnew
          rw [hc] at hx
          exact List.map_eq_nil.mp hx.symm
        have hTS0 : TS s.recs i = 0 := by
          unfold TS
          rw [hfil]
          rfl
        have hRsame : rowsFor (processPayment er ratioFn st p t).out_rows k
            = rowsFor st.out_rows k := by
          rw [hRF, hc, List.append_nil]
        rcases hsync with hnil | ⟨r, hlast, hres⟩
        · have hS0 : sumA (processPayment er ratioFn st p t).out_rows k = 0 :=
            sumA_eq_zero (by rw [hRsame]; exact hnil)
          have hL0 : lastResD (processPayment er ratioFn st p t).out_rows k = 0 :=
            lastResD_eq_zero (by rw [hRsame]; exact hnil)
          have hs0 : sumA st.out_rows k = 0 := sumA_eq_zero hnil
          have hdrop : (s.invs.getD i dummyInv).remaining ≤ st.tol := not_lt.mp hsurv
          rw [hremI, hTS0, sub_zero] at hdrop
          rw [hS0, hL0]
          rw [show (0:ℚ) + 0 - a = -a from by ring, abs_neg, abs_of_pos ha]
          linarith [hsum, hs0, hdrop]
        · have hL : lastResD (processPayment er ratioFn st p t).out_rows k
              = inv.remaining := by
            rw [lastResD_of_getLast (by rw [hRsame]; exact hlast), hres]
            rfl
          have hS : sumA (processPayment er ratioFn st p t).out_rows k
              = sumA st.out_rows k := sumA_congr hRsame
          rw [hS, hL]
          have hz : sumA st.out_rows k + inv.remaining - a = 0 := by
            linarith [hsum]
          rw [hz, abs_zero]
          exact htol

theorem processPayment_keyClosed (er : String → List String)
    (ratioFn : String → String → ℚ) (st : RState) (p : Movement) (t : String)
    (k : String) (a : ℚ) (htol : 0 ≤ st.tol)
    (h : KeyClosed st.tol st.out_rows st.open_invoices k a) :
    KeyClosed st.tol (processPayment er ratioFn st p t).out_rows
      (processPayment er ratioFn st p t).open_invoices k a := by
  obtain ⟨hkeys, hcons⟩ := h
  have hrel := stepRel_core er ratioFn st.tol htol p st.open_invoices
  obtain ⟨new, hnew0, hfacts0⟩ := hrel.recsNew
  have hshape := hrel.shape
  have hRF := processPayment_rowsFor er ratioFn st p t k
  have hOP := processPayment_open_eq er ratioFn st p t
  generalize hsdef : processPaymentCore er ratioFn st.tol p st.open_invoices = s
      at hnew0 hfacts0 hshape hRF hOP
  dsimp only at hnew0 hfacts0 hshape
  rw [List.nil_append] at hnew0
  have hlen : s.invs.length = st.open_invoices.length := shape_length hshape
  have hnoneS : ∀ x ∈ s.invs, x.doc_key ≠ k := shape_key_absent hshape k hkeys
  have hbound : ∀ mt ∈ s.recs, mt.idx < s.invs.length := by
    intro mt hm
    rw [hnew0] at hm
    rw [hlen]
    exact (hfacts0 mt hm).1
  have hnil := rowsFor_recsMap_nil st.set_id t p s.invs s.recs k hnoneS hbound
  have hRsame : rowsFor (processPayment er ratioFn st p t).out_rows k
      = rowsFor st.out_rows k := by
    rw [hRF, hnil, List.append_nil]
  constructor
  · rw [hOP]
    intro x hx
    exact hnoneS x (List.mem_filter.mp hx).1
  · rw [sumA_congr hRsame, lastResD_congr hRsame]
    exact hcons

theorem processPayment_keyFresh (er : String → List String)
    (ratioFn : String → String → ℚ) (st : RState) (p : Movement) (t : String)
    (k : String) (htol : 0 ≤ st.tol)
    (h : KeyFresh st.out_rows st.open_invoices k) :
    KeyFresh (processPayment er ratioFn st p t).out_rows
      (processPayment er ratioFn st p t).open_invoices k := by
  obtain ⟨hkeys, hrows⟩ := h
  have hrel := stepRel_core er ratioFn st.tol htol p st.open_invoices
  obtain ⟨new, hnew0, hfacts0⟩ := hrel.recsNew
  have hshape := hrel.shape
  have hRF := processPayment_rowsFor er ratioFn st p t k
  have hOP := processPayment_open_eq er ratioFn st p t
  generalize hsdef : processPaymentCore er ratioFn st.tol p st.open_invoices = s
      at hnew0 hfacts0 hshape hRF hOP
  dsimp only at hnew0 hfacts0 hshape
  rw [List.nil_append] at hnew0
  have hlen : s.invs.length = st.open_invoices.length := shape_length hshape
  have hnoneS : ∀ x ∈ s.invs, x.doc_key ≠ k := shape_key_absent hshape k hkeys
  have hbound : ∀ mt ∈ s.recs, mt.idx < s.invs.length := by
    intro mt hm
    rw [hnew0] at hm
    rw [hlen]
    exact (hfacts0 mt hm).1
  have hnil := rowsFor_recsMap_nil st.set_id t p s.invs s.recs k hnoneS hbound
  constructor
  · rw [hOP]
    intro x hx
    exact hnoneS x (List.mem_filter.mp hx).1
  · rw [hRF, hnil, List.append_nil]
    exact hrows

theorem add_invoice_open (er : String → List String) (st : RState) (row : Movement) :
    ∃ nv : Invoice, (add_invoice er st row).open_invoices = st.open_invoices ++ [nv] ∧
      nv.doc_key = row.doc_key ∧ nv.remaining = row.neto_norm :=
  ⟨_, rfl, rfl, rfl⟩

theorem add_invoice_keyFresh_other (er : String → List String) (st : RState)
    (row : Movement) (k : String) (hne : row.doc_key ≠ k)
    (h : KeyFresh st.out_rows st.open_invoices k) :
    KeyFresh (add_invoice er st row).out_rows
      (add_invoice er st row).open_invoices k := by
  obtain ⟨nv, hopen, hnk, hnr⟩ := add_invoice_open er st row
  obtain ⟨hkeys, hrows⟩ := h
  rw [hopen, show (add_invoice er st row).out_rows = st.out_rows from rfl]
  refine ⟨?_, hrows⟩
  intro x hx
  rcases List.mem_append.mp hx with hx | hx
  · exact hkeys x hx
  · rw [List.mem_singleton.mp hx, hnk]
    exact hne

theorem add_invoice_keyOpen_other (er : String → List String) (st : RState)
    (row : Movement) (k : String) (a : ℚ) (hne : row.doc_key ≠ k)
    (h : KeyOpen st.out_rows st.open_invoices k a) :
    KeyOpen (add_invoice er st row).out_rows
      (add_invoice er st row).open_invoices k a := by
  obtain ⟨nv, hopen, hnk, hnr⟩ := add_invoice_open er st row
  obtain ⟨hcount, inv, hmem, hkey, hsum, hsync⟩ := h
  rw [hopen, show (add_invoice er st row).out_rows = st.out_rows from rfl]
  refine ⟨?_, inv, List.mem_append_left _ hmem, hkey, hsum, hsync⟩
  rw [List.countP_append, List.countP_cons, List.countP_nil]
  rw [show (decide (nv.doc_key = k)) = false from
    decide_eq_false (by rw [hnk]; exact hne)]
  simpa using hcount

theorem add_invoice_keyClosed_other (er : String → List String) (st : RState)
    (row : Movement) (k : String) (a : ℚ) (hne : row.doc_key ≠ k)
    (h : KeyClosed st.tol st.out_rows st.open_invoices k a) :
    KeyClosed st.tol (add_invoice er st row).out_rows
      (add_invoice er st row).open_invoices k a := by
  obtain ⟨nv, hopen, hnk, hnr⟩ := add_invoice_open er st row
  obtain ⟨hkeys, hcons⟩ := h
  rw [hopen, show (add_invoice er st row).out_rows = st.out_rows from rfl]
  refine ⟨?_, hcons⟩
  intro x hx
  rcases List.mem_append.mp hx with hx | hx
  · exact hkeys x hx
  · rw [List.mem_singleton.mp hx, hnk]
    exact hne

theorem add_invoice_keyFresh_same (er : String → List String) (st : RState)
    (row : Movement)
    (h : KeyFresh st.out_rows st.open_invoices row.doc_key) :
    KeyOpen (add_invoice er st row).out_rows
      (add_invoice er st row).open_invoices row.doc_key row.neto_norm := by
  obtain ⟨nv, hopen, hnk, hnr⟩ := add_invoice_open er st row
  obtain ⟨hkeys, hrows⟩ := h
  rw [hopen, show (add_invoice er st row).out_rows = st.out_rows from rfl]
  refine ⟨?_, nv, List.mem_append_right _ (List.mem_singleton.mpr rfl), hnk, ?_,
    Or.inl hrows⟩
  · rw [List.countP_append, List.countP_cons, List.countP_nil]
    rw [show st.open_invoices.countP (fun x => decide (x.doc_key = row.doc_key)) = 0 from
      List.countP_eq_zero.mpr (fun x hx hdx => hkeys x hx (of_decide_eq_true hdx))]
    rw [show decide (nv.doc_key = row.doc_key) = true from decide_eq_true hnk]
    rfl
  · rw [sumA_eq_zero hrows, hnr, zero_add]

theorem movStep_tol (er : String → List String) (ratioFn : String → String → ℚ)
    (t : String) (st : RState) (row : Movement) :
    (movStep er ratioFn t st row).tol = st.tol := by
  unfold movStep
  split_ifs <;> rfl

theorem movStep_keyFresh (er : String → List String) (ratioFn : String → String → ℚ)
    (t : String) (st : RState) (q : Movement) (k : String) (htol : 0 ≤ st.tol)
    (hq : 0 < q.neto_norm → q.doc_key ≠ k)
    (h : KeyFresh st.out_rows st.open_invoices k) :
    KeyFresh (movStep er ratioFn t st q).out_rows
      (movStep er ratioFn t st q).open_invoices k := by
  unfold movStep
  split_ifs with h1 h2
  · exact add_invoice_keyFresh_other er st q k (hq h1) h
  · exact processPayment_keyFresh er ratioFn st q t k htol h
  · exact h

theorem movStep_keyOC (er : String → List String) (ratioFn : String → String → ℚ)
    (t : String) (st : RState) (q : Movement) (k : String) (a : ℚ)
    (htol : 0 ≤ st.tol) (ha : 0 < a)
    (hq : 0 < q.neto_norm → q.doc_key ≠ k)
    (h : KeyOpen st.out_rows st.open_invoices k a ∨
      KeyClosed st.tol st.out_rows st.open_invoices k a) :
    KeyOpen (movStep er ratioFn t st q).out_rows
        (movStep er ratioFn t st q).open_invoices k a ∨
    KeyClosed st.tol (movStep er ratioFn t st q).out_rows
        (movStep er ratioFn t st q).open_invoices k a := by
  unfold movStep
  split_ifs with h1 h2
  · rcases h with hO | hC
    · exact Or.inl (add_invoice_keyOpen_other er st q k a (hq h1) hO)
    · exact Or.inr (add_invoice_keyClosed_other er st q k a (hq h1) hC)
  · rcases h with hO | hC
    · exact processPayment_keyOpen er ratioFn st q t k a htol ha hO
    · exact Or.inr (processPayment_keyClosed er ratioFn st q t k a htol hC)
  · exact h

theorem foldl_movStep_tol (er : String → List String)
    (ratioFn : String → String → ℚ) (t : String) :
    ∀ (ms : List Movement) (st : RState),
      (ms.foldl (movStep er ratioFn t) st).tol = st.tol := by
  intro ms
  induction ms with
  | nil => intro st; rfl
  | cons q rest ih =>
    intro st
    rw [List.foldl_cons, ih, movStep_tol]

theorem foldl_keyFresh (er : String → List String) (ratioFn : String → String → ℚ)
    (t k : String) :
    ∀ (ms : List Movement) (st : RState), 0 ≤ st.tol →
      (∀ q ∈ ms, 0 < q.neto_norm → q.doc_key ≠ k) →
      KeyFresh st.out_rows st.open_invoices k →
      KeyFresh ((ms.foldl (movStep er ratioFn t) st)).out_rows
        ((ms.foldl (movStep er ratioFn t) st)).open_invoices k := by
  intro ms
  induction ms with
  | nil => intro st _ _ h; exact h
  | cons q rest ih =>
    intro st htol hq h
    rw [List.foldl_cons]
    refine ih (movStep er ratioFn t st q) ?_ ?_ ?_
    · rw [movStep_tol]
      exact htol
    · intro x hx
      exact hq x (List.mem_cons_of_mem _ hx)
    · exact movStep_keyFresh er ratioFn t st q k htol (hq q (List.mem_cons_self _ _)) h

theorem foldl_keyOC (er : String → List String) (ratioFn : String → String → ℚ)
    (t k : String) (a : ℚ) (ha : 0 < a) :
    ∀ (ms : List Movement) (st : RState), 0 ≤ st.tol →
      (∀ q ∈ ms, 0 < q.neto_norm → q.doc_key ≠ k) →
      (KeyOpen st.out_rows st.open_invoices k a ∨
        KeyClosed st.tol st.out_rows st.open_invoices k a) →
      (KeyOpen ((ms.foldl (movStep er ratioFn t) st)).out_rows
          ((ms.foldl (movStep er ratioFn t) st)).open_invoices k a ∨
        KeyClosed st.tol ((ms.foldl (movStep er ratioFn t) st)).out_rows
          ((ms.foldl (movStep er ratioFn t) st)).open_invoices k a) := by
  intro ms
  induction ms with
  | nil => intro st _ _ h; exact h
  | cons q rest ih =>
    intro st htol hq h
    rw [List.foldl_cons]
    have hstep := movStep_keyOC er ratioFn t st q k a htol ha
      (hq q (List.mem_cons_self _ _)) h
    have hres := ih (movStep er ratioFn t st q)
      (by rw [movStep_tol]; exact htol)
      (fun x hx => hq x (List.mem_cons_of_mem _ hx))
      (by rw [movStep_tol er ratioFn t st q]; exact hstep)
    rw [movStep_tol er ratioFn t st q] at hres
    exact hres

theorem flush_conservation (st : RState) (t k : String) (a : ℚ) (htol : 0 ≤ st.tol)
    (h : KeyOpen st.out_rows st.open_invoices k a ∨
      KeyClosed st.tol st.out_rows st.open_invoices k a) :
    |sumA (flush_remaining st t).out_rows k
      + lastResD (flush_remaining st t).out_rows k - a| ≤ st.tol := by
  have hrows : (flush_remaining st t).out_rows
      = st.out_rows ++ st.open_invoices.map (openRowOf st.set_id t) := rfl
  rcases h with ⟨hcount, inv, hmem, hkey, hsum, hsync⟩ | ⟨hkeys, hcons⟩
  · have hfm : rowsFor (st.open_invoices.map (openRowOf st.set_id t)) k
        = (st.open_invoices.filter (fun x => decide (x.doc_key = k))).map
            (openRowOf st.set_id t) := by
      unfold rowsFor
      rw [List.filter_map]
      congr 1
      apply List.filter_congr
      intro x hx
      show decide ((openRowOf st.set_id t x).DocKey = some k) = decide (x.doc_key = k)
      rw [show (openRowOf st.set_id t x).DocKey = some x.doc_key from rfl]
      apply decide_eq_decide.mpr
      exact ⟨fun hs => Option.some.inj hs, fun hh => congrArg some hh⟩
    have hfil : st.open_invoices.filter (fun x => decide (x.doc_key = k)) = [inv] :=
      countP_one_filter_eq _ hcount hmem (decide_eq_true hkey)
    have hone : rowsFor (st.open_invoices.map (openRowOf st.set_id t)) k
        = [openRowOf st.set_id t inv] := by
      rw [hfm, hfil]
      rfl
    have hRtot : rowsFor (flush_remaining st t).out_rows k
        = rowsFor st.out_rows k ++ [openRowOf st.set_id t inv] := by
      rw [hrows, rowsFor_append, hone]
    have hS : sumA (flush_remaining st t).out_rows k = sumA st.out_rows k := by
      unfold sumA
      rw [hRtot, List.map_append, List.sum_append]
      have hz : ([openRowOf st.set_id t inv].map (fun r => r.Asignado)).sum = 0 := by
        simp [show (openRowOf st.set_id t inv).Asignado = 0 from rfl]
      rw [hz, add_zero]
    have hgl : (rowsFor (flush_remaining st t).out_rows k).getLast?
        = some (openRowOf st.set_id t inv) := by
      rw [hRtot, List.getLast?_append_of_ne_nil _ (List.cons_ne_nil _ _)]
      rfl
    have hL : lastResD (flush_remaining st t).out_rows k = inv.remaining := by
      rw [lastResD_of_getLast hgl]
      rfl
    rw [hS, hL]
    have hz : sumA st.out_rows k + inv.remaining - a = 0 := by linarith [hsum]
    rw [hz, abs_zero]
    exact htol
  · have hnil : rowsFor (st.open_invoices.map (openRowOf st.set_id t)) k = [] := by
      unfold rowsFor
      rw [List.filter_map]
      have hfe : st.open_invoices.filter
          ((fun r => decide (r.DocKey = some k)) ∘ openRowOf st.set_id t) = [] := by
        apply List.filter_eq_nil.mpr
        intro x hx
        show ¬ ((fun r => decide (r.DocKey = some k)) ∘ openRowOf st.set_id t) x = true
        show ¬ decide ((openRowOf st.set_id t x).DocKey = some k) = true
        rw [show (openRowOf st.set_id t x).DocKey = some x.doc_key from rfl]
        intro hdec
        exact hkeys x hx (Option.some.inj (of_decide_eq_true hdec))
      rw [hfe]
      rfl
    have hRsame : rowsFor (flush_remaining st t).out_rows k = rowsFor st.out_rows k := by
      rw [hrows, rowsFor_append, hnil, List.append_nil]
    rw [sumA_congr hRsame, lastResD_congr hRsame]
    exact hcons

/-- C1 (amended).  For a counterparty's Reconciler stream (payments and
invoices in arrival order, the tracked invoice's key unique among the
invoice movements), the per-invoice conservation holds at end of stream
AFTER the flush but BEFORE the post-processing pass of reconcile_fifo:
the allocations referencing the invoice's DocKey plus the final residual
of its last record equal the invoice's original amount within the
tolerance.  The spec's inclusion of the post-processing pass is false:
that pass can zero an invoice's residual while recording the discharge on
a row that does not reference the invoice's DocKey (see the
counterexample). -/
theorem c1_invoice_conservation (er : String → List String)
    (ratioFn : String → String → ℚ) (tol : ℚ) (htol : 0 ≤ tol)
    (tercero : String) (pre post : List Movement) (m : Movement)
    (hm : 0 < m.neto_norm)
    (hpre : ∀ q ∈ pre, 0 < q.neto_norm → q.doc_key ≠ m.doc_key)
    (hpost : ∀ q ∈ post, 0 < q.neto_norm → q.doc_key ≠ m.doc_key) :
    |sumA (flush_remaining
        (runMovements er ratioFn tol tercero (pre ++ m :: post)) tercero).out_rows
        m.doc_key
      + lastResD (flush_remaining
          (runMovements er ratioFn tol tercero (pre ++ m :: post)) tercero).out_rows
          m.doc_key
      - m.neto_norm| ≤ tol := by
  unfold runMovements
  rw [List.foldl_append, List.foldl_cons]
  have hfresh : KeyFresh
      (pre.foldl (movStep er ratioFn tercero) ⟨tol, [], [], 0⟩).out_rows
      (pre.foldl (movStep er ratioFn tercero) ⟨tol, [], [], 0⟩).open_invoices
      m.doc_key :=
    foldl_keyFresh er ratioFn tercero m.doc_key pre ⟨tol, [], [], 0⟩ htol hpre
      ⟨fun x hx => absurd hx (List.not_mem_nil x), rfl⟩
  set st1 := pre.foldl (movStep er ratioFn tercero) (⟨tol, [], [], 0⟩ : RState) with hst1
  have htol1 : st1.tol = tol := foldl_movStep_tol er ratioFn tercero pre _
  have hstep : movStep er ratioFn tercero st1 m = add_invoice er st1 m := by
    unfold movStep
    rw [if_pos hm]
  rw [hstep]
  have hopen : KeyOpen (add_invoice er st1 m).out_rows
      (add_invoice er st1 m).open_invoices m.doc_key m.neto_norm :=
    add_invoice_keyFresh_same er st1 m hfresh
  have htolA : (add_invoice er st1 m).tol = tol := by
    rw [show (add_invoice er st1 m).tol = st1.tol from rfl, htol1]
  have hOC := foldl_keyOC er ratioFn tercero m.doc_key m.neto_norm hm post
    (add_invoice er st1 m) (by rw [htolA]; exact htol) hpost (Or.inl hopen)
  rw [htolA] at hOC
  have htolF : (post.foldl (movStep er ratioFn tercero) (add_invoice er st1 m)).tol
      = tol := by
    rw [foldl_movStep_tol, htolA]
  rw [← htolF] at hOC
  have hfin := flush_conservation
    (post.foldl (movStep er ratioFn tercero) (add_invoice er st1 m))
    tercero m.doc_key m.neto_norm (by rw [htolF]; exact htol) hOC
  rw [htolF] at hfin
  exact hfin

/-- C1, counterexample: a 100 payment dated before its matching 100
invoice.  The payment leaves an Unallocated record, the invoice is
flushed as Open, and the post-processing pass of reconcile_fifo then
"discharges" the pair: it zeroes the invoice row's residual while
booking the -100 on the payment row, whose DocKey is null — so the sum
of allocations referencing the invoice key plus its final residual is 0,
off from the original 100 by far more than the 0.01 tolerance. -/
theorem c1_counterexample :
    0 < cInvLate.neto_norm ∧
    ¬ (|sumA (reconcile_fifo erNone ratioZero [cPayEarly, cInvLate] (1/100))
          cInvLate.doc_key
        + lastResD (reconcile_fifo erNone ratioZero [cPayEarly, cInvLate] (1/100))
            cInvLate.doc_key
        - cInvLate.neto_norm| ≤ 1/100) := by
  refine ⟨by with_unfolding_all decide, by with_unfolding_all decide⟩

/-- C1, witness: an invoice of 100 followed by a partial payment of 30 —
at flush the invoice carries 30 of allocations and a last residual of
70, conserving the original 100 exactly. -/
theorem c1_witness :
    ((0:ℚ) ≤ 1/100 ∧ 0 < cInvMov.neto_norm) ∧
    |sumA (flush_remaining
        (runMovements erNone ratioZero (1/100) "t" ([] ++ cInvMov :: [cPay30])) "t").out_rows
        cInvMov.doc_key
      + lastResD (flush_remaining
          (runMovements erNone ratioZero (1/100) "t" ([] ++ cInvMov :: [cPay30])) "t").out_rows
          cInvMov.doc_key
      - cInvMov.neto_norm| ≤ 1/100 :=
  ⟨⟨by with_unfolding_all decide, by with_unfolding_all decide⟩,
   c1_invoice_conservation erNone ratioZero (1/100) (by with_unfolding_all decide)
     "t" [] [cPay30] cInvMov
     (by with_unfolding_all decide)
     (by intro q hq; cases hq)
     (by
       intro q hq hpos
       rw [List.mem_singleton.mp hq] at hpos
       exact absurd hpos (by with_unfolding_all decide))⟩

end Conciliador
